import Mathlib

/-!
# Six degrees over a binary film index

A shallow embedding of `assign1/imdb.cc` (the reader of the two memory-mapped
index files) and `assign1/search.cc` (the breadth-first search for the shortest
chain of co-appearances), followed by theorems about them.

Conventions of the embedding.

* A byte is a `Fin 256`; a `std::string` is the list of its bytes.
* A mapped file is the list of its bytes.  A read outside of that list is
  undefined behaviour in the source; the embedding returns `none` for it, and
  `none` propagates to the caller.
* `int` and `short` values read from a file are `Int`s obtained from the
  little-endian bytes by two's complement.
* The loop of `findShortestPath` is run with a bound on the number of
  iterations (`fuel`); `none` means that the bound was reached.
-/

namespace Imdb

/-! ## Values -/

/-- One byte of a mapped file or of a `std::string`. -/
abbrev Byte := Fin 256

/-- A `std::string`: its bytes, in order. -/
abbrev string := List Byte

/-- Modelled from the spec: the struct `film` of `imdb-utils.h`, which is not
among the sources.  A film value is a title and a year. -/
structure film where
  title : string
  year : Int
  deriving DecidableEq, Repr

/-- Byte-wise lexicographic order of `std::string` (`operator<`): characters are
compared as unsigned bytes, and a proper prefix sorts first. -/
def strLt : string → string → Bool
  | [], [] => false
  | [], _ :: _ => true
  | _ :: _, [] => false
  | a :: as, b :: bs => if a.val < b.val then true else if b.val < a.val then false else strLt as bs

/-- Modelled from the spec: `film::operator<` of `imdb-utils.h`, which is not
among the sources.  Films are ordered by `(title, year)`, the title
lexicographically and then the year numerically. -/
def film.lt (a b : film) : Bool :=
  strLt a.title b.title || (decide (a.title = b.title) && decide (a.year < b.year))

/-- Modelled from the spec: `film::operator==` of `imdb-utils.h`, which is not
among the sources.  Two films are equal when both fields match exactly. -/
def film.eq (a b : film) : Bool :=
  decide (a.title = b.title) && decide (a.year = b.year)

/-! ## Reading a mapped file -/

/-- The byte at address `addr` of a mapped file; `none` outside of the file. -/
def readByte (buf : List Byte) (addr : Int) : Option Byte :=
  if addr < 0 then none else buf[addr.toNat]?

/-- Two's complement: the signed value of the `bits`-bit pattern `v`. -/
def toSigned (bits : Nat) (v : Nat) : Int :=
  if v < 2 ^ (bits - 1) then (v : Int) else (v : Int) - 2 ^ bits

/-- The `char` at `addr` (`*ptr` for a `const char *`), taken as a signed 8-bit
value; the cast to `unsigned char` in `buildFilm` makes the year the same for
an unsigned `char`. -/
def readChar (buf : List Byte) (addr : Int) : Option Int :=
  (readByte buf addr).map fun b => toSigned 8 b.val

/-- The `short` at `addr` (`*(const short *)ptr`), little-endian. -/
def readShort (buf : List Byte) (addr : Int) : Option Int :=
  (readByte buf addr).bind fun b0 =>
  (readByte buf (addr + 1)).map fun b1 =>
  toSigned 16 (b0.val + 256 * b1.val)

/-- The `int` at `addr` (`*(const int *)ptr`), little-endian. -/
def readInt (buf : List Byte) (addr : Int) : Option Int :=
  (readByte buf addr).bind fun b0 =>
  (readByte buf (addr + 1)).bind fun b1 =>
  (readByte buf (addr + 2)).bind fun b2 =>
  (readByte buf (addr + 3)).map fun b3 =>
  toSigned 32 (b0.val + 256 * b1.val + 65536 * b2.val + 16777216 * b3.val)

/-- The bytes of `l` before its first zero byte; `none` when `l` has no zero
byte. -/
def scanString : List Byte → Option string
  | [] => none
  | b :: rest => if b = 0 then some [] else (scanString rest).map fun t => b :: t

/-- The constructor `std::string(const char *)` applied to the address `addr` of
a mapped file: the bytes from `addr` up to the first zero byte. -/
def readString (buf : List Byte) (addr : Int) : Option string :=
  if addr < 0 then none else scanString (buf.drop addr.toNat)

/-- The loop of `std::lower_bound` over the positions `first .. first + len` of
a table, `comp i` being the comparison of entry `i` with the value searched.
`fuel` bounds the number of halvings; `len` suffices. -/
def lowerBoundLoop (comp : Nat → Option Bool) : Nat → Nat → Nat → Option Nat
  | 0, first, _ => some first
  | fuel + 1, first, len =>
    if len = 0 then some first
    else
      match comp (first + len / 2) with
      | none => none
      | some true => lowerBoundLoop comp fuel (first + len / 2 + 1) (len - len / 2 - 1)
      | some false => lowerBoundLoop comp fuel first (len / 2)

/-- The algorithm `std::lower_bound` on a table of `len` entries: the first
position whose entry does not compare less than the value searched, or `len`. -/
def lowerBound (comp : Nat → Option Bool) (len : Nat) : Option Nat :=
  lowerBoundLoop comp len 0 len

/-- Collects `f i, f (i + 1), ...`, `n` values in all, as a `for` loop with
`push_back` does. -/
def collectFrom {α : Type} (f : Nat → Option α) : Nat → Nat → Option (List α)
  | _, 0 => some []
  | i, n + 1 =>
    (f i).bind fun x => (collectFrom f (i + 1) n).map fun xs => x :: xs

/-! ## The reader of `imdb.cc` -/

/-- The two mapped files of an `imdb`. -/
structure imdb where
  actorFile : List Byte
  movieFile : List Byte

/-- The function `buildFilm` of `imdb.cc`, lines 37-49. -/
def buildFilm (movieData : List Byte) (offset : Int) : Option film :=
  (readString movieData offset).bind fun title =>
  (readChar movieData (offset + title.length + 1)).map fun yearChar =>
  ⟨title, 1900 + yearChar % 256⟩

/-- Lines 77-80: the offset of the film count within an actor record whose name
has `nameLength` bytes. -/
def actorCountOffset (nameLength : Nat) : Nat :=
  if (nameLength + 1) % 2 ≠ 0 then nameLength + 1 + 1 else nameLength + 1

/-- Lines 130-134: the offset of the cast count within a film record whose
title has `titleLength` bytes. -/
def filmCountOffset (titleLength : Nat) : Nat :=
  if (titleLength + 1 + 1) % 2 ≠ 0 then titleLength + 1 + 1 + 1 else titleLength + 1 + 1

/-- Lines 85-90 and 139-144: the offset of the list of offsets within a record
whose count is at `countOffset`. -/
def listOffset (countOffset : Nat) : Nat :=
  if (countOffset + 2) % 4 ≠ 0 then countOffset + 2 + 2 else countOffset + 2

/-- The name of the record that entry `i` of the actor table points to:
`string(actorData + offsets_begin[i])`. -/
def actorNameAt (db : imdb) (i : Nat) : Option string :=
  (readInt db.actorFile (4 + 4 * i)).bind fun offset => readString db.actorFile offset

/-- The film that entry `i` of the film table decodes to:
`buildFilm(movieFile, offsets_begin[i])`. -/
def filmAt (db : imdb) (i : Nat) : Option film :=
  (readInt db.movieFile (4 + 4 * i)).bind fun offset => buildFilm db.movieFile offset

/-- Lines 53-61 of `getCredits`: the number of actors and the position that
`lower_bound` returns. -/
def actorLowerBound (db : imdb) (player : string) : Option (Int × Nat) :=
  (readInt db.actorFile 0).bind fun numActors =>
  (lowerBound (fun i => (actorNameAt db i).map fun name => strLt name player)
    numActors.toNat).map fun it =>
  (numActors, it)

/-- Lines 71-97 of `getCredits`: the films of the actor record at `offset`. -/
def readCredits (db : imdb) (offset : Int) : Option (List film) :=
  (readString db.actorFile offset).bind fun actorName =>
  (readShort db.actorFile (offset + actorCountOffset actorName.length)).bind fun numMovies =>
  collectFrom
    (fun i =>
      (readInt db.actorFile
        (offset + listOffset (actorCountOffset actorName.length) + 4 * i)).bind fun movieOffset =>
      buildFilm db.movieFile movieOffset)
    0 numMovies.toNat

/-- The method `imdb::getCredits`, lines 51-100.  `films` is the vector passed
by reference; the result is the returned flag and the vector after the call. -/
def getCredits (db : imdb) (player : string) (films : List film) :
    Option (Bool × List film) :=
  (actorLowerBound db player).bind fun (numActors, it) =>
  if (it : Int) = numActors then some (false, films)
  else
    (readInt db.actorFile (4 + 4 * it)).bind fun offset =>
    (readString db.actorFile offset).bind fun found =>
    if found ≠ player then some (false, films)
    else (readCredits db offset).map fun credits => (true, credits)

/-- Lines 104-114 of `getCast`: the number of films and the position that
`lower_bound` returns. -/
def filmLowerBound (db : imdb) (movie : film) : Option (Int × Nat) :=
  (readInt db.movieFile 0).bind fun numMovies =>
  (lowerBound (fun i => (filmAt db i).map fun f => f.lt movie) numMovies.toNat).map fun it =>
  (numMovies, it)

/-- Lines 123-153 of `getCast`: the cast of the film record at `offset`, whose
decoded film is `foundFilm`. -/
def readCast (db : imdb) (offset : Int) (foundFilm : film) : Option (List string) :=
  (readShort db.movieFile (offset + filmCountOffset foundFilm.title.length)).bind fun castSize =>
  collectFrom
    (fun i =>
      (readInt db.movieFile
        (offset + listOffset (filmCountOffset foundFilm.title.length) + 4 * i)).bind
        fun actorOffset => readString db.actorFile actorOffset)
    0 castSize.toNat

/-- The method `imdb::getCast`, lines 102-156.  Line 117 reads `*it` and decodes
the film there before line 118 tests `it == offsets_end`. -/
def getCast (db : imdb) (movie : film) (players : List string) :
    Option (Bool × List string) :=
  (filmLowerBound db movie).bind fun (numMovies, it) =>
  (readInt db.movieFile (4 + 4 * it)).bind fun offset =>
  (buildFilm db.movieFile offset).bind fun foundFilm =>
  if (it : Int) = numMovies || !(foundFilm.eq movie) then some (false, players)
  else (readCast db offset foundFilm).map fun cast => (true, cast)

/-- The actor file is an actor buffer of `N` records whose table is sorted: the
count is `N`, every entry of the table points to a record that decodes, and the
names of the entries ascend in the byte-wise order (equal neighbours allowed). -/
structure ActorBuffer (db : imdb) (N : Nat) : Prop where
  count : readInt db.actorFile 0 = some (N : Int)
  entry : ∀ i, i < N → ∃ offset name credits,
    readInt db.actorFile (4 + 4 * i) = some offset ∧
    readString db.actorFile offset = some name ∧ readCredits db offset = some credits
  sorted : ∀ i j name name', i < j → j < N → actorNameAt db i = some name →
    actorNameAt db j = some name' → strLt name' name = false

/-- The film file is a film buffer of `N` records whose table is sorted: the
count is `N`, every entry of the table points to a record that decodes, and the
films of the entries ascend by `(title, year)` (equal neighbours allowed). -/
structure FilmBuffer (db : imdb) (N : Nat) : Prop where
  count : readInt db.movieFile 0 = some (N : Int)
  entry : ∀ i, i < N → ∃ offset f cast,
    readInt db.movieFile (4 + 4 * i) = some offset ∧
    buildFilm db.movieFile offset = some f ∧ readCast db offset f = some cast
  sorted : ∀ i j f f', i < j → j < N → filmAt db i = some f →
    filmAt db j = some f' → f'.lt f = false

/-! ## Two small files for concrete runs -/

/-- An actor file with two records: `A` (at 12, one film, at offset 8 of the
film file) and `C` (at 20, no film). -/
def demoActorFile : List Byte :=
  [2, 0, 0, 0,  12, 0, 0, 0,  20, 0, 0, 0,
   65, 0, 1, 0,  8, 0, 0, 0,
   67, 0, 0, 0]

/-- A film file with one record: the film `1` of 1990 (at 8), whose cast is the
actor at offset 12 of the actor file. -/
def demoMovieFile : List Byte :=
  [1, 0, 0, 0,  8, 0, 0, 0,
   49, 0, 90, 0,  1, 0, 0, 0,  12, 0, 0, 0]

/-- A film record whose year byte has its high bit set: the film `1` of 2100. -/
def demoRecord : List Byte := [49, 0, 200]

/-- The `imdb` over the two small files. -/
def demoImdb : imdb := ⟨demoActorFile, demoMovieFile⟩

/-! ## Cross-references, reads, and two more files -/

/-- The two files refer to each other: every film offset listed in the record
of an entry of the actor table is an entry of the film table, and the film
record there lists the offset of that actor record among its cast offsets. -/
structure CrossReferenced (db : imdb) (N M : Nat) : Prop where
  back : ∀ (i : Nat) (offset : Int) (name : string) (C : Int) (j : Nat), i < N →
    readInt db.actorFile (4 + 4 * i) = some offset →
    readString db.actorFile offset = some name →
    readShort db.actorFile (offset + actorCountOffset name.length) = some C → j < C.toNat →
    ∃ (movieOffset : Int) (m : Nat) (f : film) (K : Int) (t : Nat),
      readInt db.actorFile (offset + listOffset (actorCountOffset name.length) + 4 * j) =
        some movieOffset ∧
      m < M ∧ readInt db.movieFile (4 + 4 * m) = some movieOffset ∧
      buildFilm db.movieFile movieOffset = some f ∧
      readShort db.movieFile (movieOffset + filmCountOffset f.title.length) = some K ∧
      t < K.toNat ∧
      readInt db.movieFile (movieOffset + listOffset (filmCountOffset f.title.length) + 4 * t) =
        some offset

/-- The addresses that a scan for the terminating zero byte reads, one after the
other from address `a`, `l` being the bytes of the file from `a` on: the scan
stops at the first zero byte, and where the file ends without one it reads the
address after the last byte. -/
def scanReads : List Byte → Nat → List Nat
  | [], a => [a]
  | b :: rest, a => if b = 0 then [a] else a :: scanReads rest (a + 1)

/-- The addresses that `std::string(const char *)` reads when it is applied to
the address `addr` of a mapped file. -/
def stringReads (buf : List Byte) (addr : Nat) : List Nat :=
  scanReads (buf.drop addr) addr

/-- The addresses that `buildFilm` reads: those of the scan of the title
(line 41) and, when the scan has ended, that of the year byte (line 46). -/
def buildFilmReads (movieData : List Byte) (offset : Nat) : List Nat :=
  stringReads movieData offset ++
    match readString movieData (offset : Int) with
    | some title => [offset + title.length + 1]
    | none => []

/-- A film file that ends inside of a title: two bytes, none of them zero. -/
def unterminated : List Byte := [49, 50]

/-- An actor file with one record, `A` at 8, whose film count is -1. -/
def negActorFile : List Byte := [1, 0, 0, 0,  8, 0, 0, 0,  65, 0, 255, 255]

/-- A film file with one record, the film `1` of 1990 at 8, whose cast count is
-1. -/
def negMovieFile : List Byte := [1, 0, 0, 0,  8, 0, 0, 0,  49, 0, 90, 0,  255, 255]

/-- The `imdb` over the two files with negative counts. -/
def negImdb : imdb := ⟨negActorFile, negMovieFile⟩

/-! ## Paths -/

/-- Modelled from the spec: the class `path` of `path.h`, which is not among the
sources.  A path is a start actor followed by `(film, actor)` hops. -/
structure path where
  startPlayer : string
  links : List (film × string)
  deriving DecidableEq, Repr

/-- The constructor `path(startPlayer)`: a path without hops. -/
def path.new (startPlayer : string) : path := ⟨startPlayer, []⟩

/-- Modelled from the spec: `path::addConnection`, which appends one hop. -/
def path.addConnection (p : path) (movie : film) (player : string) : path :=
  { p with links := p.links ++ [(movie, player)] }

/-- Modelled from the spec: `path::getLastPlayer`, the actor of the last hop, or
the start actor when there is no hop. -/
def path.getLastPlayer (p : path) : string :=
  match p.links.getLast? with
  | some c => c.2
  | none => p.startPlayer

/-- Modelled from the spec: `path::getLength`, the number of hops. -/
def path.getLength (p : path) : Nat := p.links.length

/-- The actors of a path: the start actor and the actor of each hop. -/
def path.players (p : path) : List string := p.startPlayer :: p.links.map Prod.snd

/-! ## The search of `search.cc` -/

/-- The two queries `findShortestPath` makes of an `imdb`.  Both call sites pass
a fresh, empty vector, so a call is described by its result: `none` when the
method returns `false`, and `some l` when it returns `true` having filled the
vector with `l`. -/
structure Database where
  getCredits : string → Option (List film)
  getCast : film → Option (List string)

/-- `std::set::insert` on a set kept as a list of distinct elements. -/
def setInsert {α : Type} [DecidableEq α] (x : α) (s : List α) : List α :=
  if x ∈ s then s else x :: s

/-- The variables of `findShortestPath` (`queue`, `seenPlayers`, `seenFilms`),
and four counters that the source does not have and that only record what
happened: the number of loop iterations started, the arguments of the calls of
`getCredits` and of `getCast` (latest first), and every path that was pushed on
the queue (latest first). -/
structure SearchState where
  queue : List path
  seenPlayers : List string
  seenFilms : List film
  iterations : Nat
  creditsCalls : List string
  castCalls : List film
  enqueued : List path
  deriving DecidableEq, Repr

/-- Lines 57-66: the body of the loop over the cast of `credit`. -/
def visitCostar (currentPath : path) (credit : film) (s : SearchState) (costar : string) :
    SearchState :=
  if costar ∈ s.seenPlayers then s
  else
    let newPath := currentPath.addConnection credit costar
    { s with
      seenPlayers := setInsert costar s.seenPlayers
      queue := s.queue ++ [newPath]
      enqueued := newPath :: s.enqueued }

/-- Lines 47-68: the body of the loop over the credits of the current player. -/
def visitCredit (db : Database) (currentPath : path) (s : SearchState) (credit : film) :
    SearchState :=
  if credit ∈ s.seenFilms then s
  else
    let s1 := { s with
      seenFilms := setInsert credit s.seenFilms
      castCalls := credit :: s.castCalls }
    match db.getCast credit with
    | some cast => cast.foldl (visitCostar currentPath credit) s1
    | none => s1

/-- Lines 43-70: the expansion of the path that was taken from the queue. -/
def expand (db : Database) (currentPath : path) (s : SearchState) : SearchState :=
  let s1 := { s with creditsCalls := currentPath.getLastPlayer :: s.creditsCalls }
  match db.getCredits currentPath.getLastPlayer with
  | some credits => credits.foldl (visitCredit db currentPath) s1
  | none => s1

/-- Lines 31-74: the loop, run for at most `fuel` iterations.  The result is the
returned path together with the final state; `none` means that `fuel`
iterations did not suffice. -/
def bfsLoop (db : Database) (endPlayer : string) : Nat → SearchState → Option (path × SearchState)
  | 0, s =>
    match s.queue with
    | [] => some (path.new [], s)
    | _ :: _ => none
  | fuel + 1, s =>
    match s.queue with
    | [] => some (path.new [], s)
    | currentPath :: rest =>
      let s1 := { s with queue := rest, iterations := s.iterations + 1 }
      if currentPath.getLastPlayer = endPlayer then some (currentPath, s1)
      else bfsLoop db endPlayer fuel (expand db currentPath s1)

/-- Lines 21-28: the state before the loop. -/
def initialState (startPlayer : string) : SearchState :=
  { queue := [path.new startPlayer]
    seenPlayers := setInsert startPlayer []
    seenFilms := []
    iterations := 0
    creditsCalls := []
    castCalls := []
    enqueued := [path.new startPlayer] }

/-- The run of `findShortestPath` with its final state. -/
def findShortestPathRun (fuel : Nat) (startPlayer endPlayer : string) (db : Database) :
    Option (path × SearchState) :=
  bfsLoop db endPlayer fuel (initialState startPlayer)

/-- The function `findShortestPath` of `search.cc`. -/
def findShortestPath (fuel : Nat) (startPlayer endPlayer : string) (db : Database) :
    Option path :=
  (findShortestPathRun fuel startPlayer endPlayer db).map Prod.fst

/-- Lines 85-89 of `main`: whether "No Path found" is printed. -/
def printsNoPath (p : path) : Bool := decide (p.getLastPlayer = [])

/-! ## Chains of hops -/

/-- A hop `a -> b` via film `f`: `f` is among the credits of `a`, and `getCast`
succeeds on `f` with `b` in the cast. -/
def Hop (db : Database) (a : string) (f : film) (b : string) : Prop :=
  (∃ credits, db.getCredits a = some credits ∧ f ∈ credits) ∧
  (∃ cast, db.getCast f = some cast ∧ b ∈ cast)

/-- The hops `links` form a chain that starts at `a`. -/
def ValidFrom (db : Database) : string → List (film × string) → Prop
  | _, [] => True
  | a, (f, b) :: rest => Hop db a f b ∧ ValidFrom db b rest

/-- Every hop of the path is a hop of the database from the actor before it. -/
def path.Valid (db : Database) (p : path) : Prop := ValidFrom db p.startPlayer p.links

/-- There is a chain of exactly `n` hops from `start` to the given actor. -/
inductive Chain (db : Database) (start : string) : Nat → string → Prop
  | nil : Chain db start 0 start
  | snoc {n : Nat} {a b : string} (f : film) : Chain db start n a → Hop db a f b →
      Chain db start (n + 1) b

/-- The actors one hop away from `a`. -/
def neighbours (db : Database) (a : string) : List string :=
  match db.getCredits a with
  | some credits => credits.flatMap fun f => (db.getCast f).getD []
  | none => []

/-- The ends of the chains of exactly `n` hops from `start`. -/
def level (db : Database) (start : string) : Nat → List string
  | 0 => [start]
  | n + 1 => (level db start n).flatMap (neighbours db)

/-- The ends of the chains of at most `d` hops from `start`. -/
def ball (db : Database) (start : string) (d : Nat) : List string :=
  (List.range (d + 1)).flatMap (level db start)

/-! ## The invariant of the search -/

/-- Every film that was marked as seen has its whole cast marked as seen. -/
def FilmsClosed (db : Database) (s : SearchState) : Prop :=
  ∀ f ∈ s.seenFilms, ∀ cast, db.getCast f = some cast → ∀ b ∈ cast, b ∈ s.seenPlayers

/-- The invariant of `findShortestPath`.  `pending` lists the paths that still
await their expansion: the queue at the head of the loop, and the current path
followed by the queue inside an iteration. -/
structure Inv (db : Database) (start endPlayer : string) (pending : List path)
    (s : SearchState) : Prop where
  seen_start : start ∈ s.seenPlayers
  seen_cases : ∀ a ∈ s.seenPlayers,
    (∃ p ∈ pending, p.getLastPlayer = a) ∨ ∀ f b, Hop db a f b → b ∈ s.seenPlayers
  minimal : ∀ p ∈ pending, ∀ n, Chain db start n p.getLastPlayer → p.getLength ≤ n
  sorted : pending.Pairwise (fun p q => p.getLength ≤ q.getLength)
  close : ∀ p ∈ pending, ∀ q ∈ pending, q.getLength ≤ p.getLength + 1
  valid : ∀ p ∈ pending, p.startPlayer = start ∧ p.Valid db
  pending_seen : ∀ p ∈ pending, p.getLastPlayer ∈ s.seenPlayers
  end_pending : endPlayer ∈ s.seenPlayers → ∃ p ∈ pending, p.getLastPlayer = endPlayer
  seen_reach : ∀ a ∈ s.seenPlayers, a = start ∨ ∃ n, Chain db start (n + 1) a
  seen_nodup : s.seenPlayers.Nodup
  enqueued_last : s.enqueued.map path.getLastPlayer = s.seenPlayers
  films_nodup : s.seenFilms.Nodup
  cast_calls : s.castCalls = s.seenFilms
  count : s.iterations + s.queue.length = s.enqueued.length

/-- What one state of the search keeps of an earlier one: the two sets of seen
values only grow, and the number of iterations and the calls of `getCredits`
are those of the earlier state. -/
structure Grows (s s' : SearchState) : Prop where
  players : ∀ a ∈ s.seenPlayers, a ∈ s'.seenPlayers
  films : ∀ f ∈ s.seenFilms, f ∈ s'.seenFilms
  iterations : s'.iterations = s.iterations
  creditsCalls : s'.creditsCalls = s.creditsCalls

/-- What holds when the loop of `findShortestPath` has returned `p`: either the
queue ran empty and `p` is `path("")`, or `p` was taken from the queue with
`endPlayer` as its last player, and then it is a chain from `start` that no
chain to `endPlayer` undercuts. -/
def Post (db : Database) (start endPlayer : string) (pending : List path) (p : path) : Prop :=
  (p = path.new [] ∧ pending = []) ∨
  (p.getLastPlayer = endPlayer ∧ p.startPlayer = start ∧ p.Valid db ∧
    ∀ n, Chain db start n endPlayer → p.getLength ≤ n)

/-! ## A small database for concrete runs -/

/-- Four actor names of the small database. -/
def actorA : string := [65]

/-- Second actor of the small database. -/
def actorB : string := [66]

/-- Third actor of the small database. -/
def actorC : string := [67]

/-- Fourth actor of the small database, who shares no film with the others. -/
def actorD : string := [68]

/-- First film of the small database, with `actorA` and `actorB`. -/
def film1 : film := ⟨[49], 1990⟩

/-- Second film of the small database, with `actorB` and `actorC`. -/
def film2 : film := ⟨[50], 1995⟩

/-- The small database: `actorA - film1 - actorB - film2 - actorC`, and
`actorD`, who is known and has no film. -/
def demoDb : Database where
  getCredits := fun a =>
    if a = actorA then some [film1]
    else if a = actorB then some [film1, film2]
    else if a = actorC then some [film2]
    else if a = actorD then some []
    else none
  getCast := fun f =>
    if f = film1 then some [actorA, actorB]
    else if f = film2 then some [actorB, actorC]
    else none

/-- The actors that occur in a cast of the small database. -/
def demoActors : Finset string := {actorA, actorB, actorC}

/-! ## Relations between states and between databases -/

/-- The films of the hops of a path. -/
def path.films (p : path) : List film := p.links.map Prod.fst

/-- A later state of the search keeps what an earlier one had: every seen
player, every seen film, and every path that was pushed on the queue. -/
structure Extends (s s' : SearchState) : Prop where
  players : ∀ a ∈ s.seenPlayers, a ∈ s'.seenPlayers
  films : ∀ f ∈ s.seenFilms, f ∈ s'.seenFilms
  enqueued : ∀ p ∈ s.enqueued, p ∈ s'.enqueued

/-- Every path that was pushed on the queue is simple: no actor and no film
occurs twice in it, and its actors and films are marked as seen.  The paths in
the queue are among those that were pushed. -/
structure Simple (s : SearchState) : Prop where
  queue_enqueued : ∀ p ∈ s.queue, p ∈ s.enqueued
  players_nodup : ∀ p ∈ s.enqueued, p.players.Nodup
  films_nodup : ∀ p ∈ s.enqueued, p.films.Nodup
  players_seen : ∀ p ∈ s.enqueued, ∀ a ∈ p.players, a ∈ s.seenPlayers
  films_seen : ∀ p ∈ s.enqueued, ∀ f ∈ p.films, f ∈ s.seenFilms

/-- The database `db'` answers as `db` does, except that where `db` returns
`false` it may return `true` with an empty list: an unreadable film has an
empty cast, an unreadable actor has no films. -/
structure SkipsUnreadable (db db' : Database) : Prop where
  credits : ∀ a, db'.getCredits a = db.getCredits a ∨
    (db.getCredits a = none ∧ db'.getCredits a = some [])
  cast : ∀ f, db'.getCast f = db.getCast f ∨
    (db.getCast f = none ∧ db'.getCast f = some [])

/-- An actor whom the small database does not know. -/
def actorE : string := [69]

/-- A film whose cast cannot be read in `brokenDb`. -/
def film3 : film := ⟨[51], 2000⟩

/-- A database in which `getCast` returns `false` for `film3`, a credit of
`actorA`, and `getCredits` returns `false` for every actor but two. -/
def brokenDb : Database where
  getCredits := fun a =>
    if a = actorA then some [film3, film1]
    else if a = actorB then some [film1]
    else none
  getCast := fun f => if f = film1 then some [actorA, actorB] else none

/-- The database `brokenDb` with an empty cast for `film3` and no films for the
actors it does not know. -/
def mendedDb : Database where
  getCredits := fun a =>
    if a = actorA then some [film3, film1]
    else if a = actorB then some [film1]
    else some []
  getCast := fun f =>
    if f = film1 then some [actorA, actorB] else if f = film3 then some [] else none

/-- The actor name "Kevin Bacon". -/
def kevinBacon : string := [75, 101, 118, 105, 110, 32, 66, 97, 99, 111, 110]

/-- The actor name "Tom Hanks". -/
def tomHanks : string := [84, 111, 109, 32, 72, 97, 110, 107, 115]

/-- The film "Apollo 13" of 1995. -/
def apollo13 : film := ⟨[65, 112, 111, 108, 108, 111, 32, 49, 51], 1995⟩

/-- The database of the example of the specification: "Kevin Bacon" and "Tom
Hanks" are both in "Apollo 13". -/
def apolloDb : Database where
  getCredits := fun a => if a = kevinBacon ∨ a = tomHanks then some [apollo13] else none
  getCast := fun f => if f = apollo13 then some [kevinBacon, tomHanks] else none

/-- A database in which `film1` occurs twice in the credits of `actorA` and
once more in the credits of `actorB`. -/
def repeatDb : Database where
  getCredits := fun a =>
    if a = actorA then some [film1, film1, film2]
    else if a = actorB then some [film1, film2]
    else none
  getCast := fun f =>
    if f = film1 then some [actorA, actorB] else if f = film2 then some [actorB, actorA] else none

/-- The final state of the search from `actorA` for `actorD` in `repeatDb`. -/
def repeatFinal : SearchState :=
  { queue := []
    seenPlayers := [actorB, actorA]
    seenFilms := [film2, film1]
    iterations := 2
    creditsCalls := [actorB, actorA]
    castCalls := [film2, film1]
    enqueued := [⟨actorA, [(film1, actorB)]⟩, path.new actorA] }

/-- The final state of the search from `actorA` for `actorC` in `demoDb`. -/
def demoFinal : SearchState :=
  { queue := []
    seenPlayers := [actorC, actorB, actorA]
    seenFilms := [film2, film1]
    iterations := 3
    creditsCalls := [actorB, actorA]
    castCalls := [film2, film1]
    enqueued := [⟨actorA, [(film1, actorB), (film2, actorC)]⟩, ⟨actorA, [(film1, actorB)]⟩,
      path.new actorA] }

/-! ## Lemmas about paths and chains -/

theorem getLastPlayer_new (a : string) : (path.new a).getLastPlayer = a := rfl

theorem getLastPlayer_addConnection (p : path) (f : film) (b : string) :
    (p.addConnection f b).getLastPlayer = b := by
  simp [path.addConnection, path.getLastPlayer, List.getLast?_concat]

theorem getLength_addConnection (p : path) (f : film) (b : string) :
    (p.addConnection f b).getLength = p.getLength + 1 := by
  simp [path.addConnection, path.getLength]

theorem validFrom_concat (db : Database) (f : film) (b : string) :
    ∀ (links : List (film × string)) (a : string), ValidFrom db a links →
      Hop db (path.getLastPlayer ⟨a, links⟩) f b → ValidFrom db a (links ++ [(f, b)])
  | [], a, _, h => by
    simpa [ValidFrom, path.getLastPlayer] using h
  | [(g, c)], a, hv, h => by
    simp only [ValidFrom, path.getLastPlayer, List.getLast?_singleton] at hv h
    simpa [ValidFrom] using ⟨hv.1, h⟩
  | (g, c) :: x :: rest, a, hv, h => by
    have ih := validFrom_concat db f b (x :: rest) c hv.2
      (by simpa [path.getLastPlayer, List.getLast?_cons_cons] using h)
    exact ⟨hv.1, ih⟩

theorem valid_addConnection (db : Database) (p : path) (f : film) (b : string)
    (hv : p.Valid db) (h : Hop db p.getLastPlayer f b) : (p.addConnection f b).Valid db :=
  validFrom_concat db f b p.links p.startPlayer hv h

theorem chain_of_validFrom (db : Database) (start : string) :
    ∀ (links : List (film × string)) (a : string) (n : Nat), Chain db start n a →
      ValidFrom db a links →
      Chain db start (n + links.length) (path.getLastPlayer ⟨a, links⟩)
  | [], a, n, hc, _ => by simpa [path.getLastPlayer] using hc
  | [(g, c)], a, n, hc, hv => by
    simpa [path.getLastPlayer] using Chain.snoc g hc hv.1
  | (g, c) :: x :: rest, a, n, hc, hv => by
    have ih := chain_of_validFrom db start (x :: rest) c (n + 1) (Chain.snoc g hc hv.1) hv.2
    have e : n + ((g, c) :: x :: rest).length = n + 1 + (x :: rest).length := by
      simp only [List.length_cons]; omega
    rw [e]
    simpa [path.getLastPlayer, List.getLast?_cons_cons] using ih

theorem chain_of_valid (db : Database) (p : path) (hv : p.Valid db) :
    Chain db p.startPlayer p.getLength p.getLastPlayer := by
  have h := chain_of_validFrom db p.startPlayer p.links p.startPlayer 0 Chain.nil hv
  simpa [path.getLength] using h

/-! ## Preservation of the invariant -/

section Search

variable {db : Database} {start endPlayer : string}

theorem frontier {pending : List path} {s : SearchState}
    (h : Inv db start endPlayer pending s) :
    ∀ n b, Chain db start n b → b ∉ s.seenPlayers → ∃ p ∈ pending, p.getLength < n := by
  intro n b hc
  induction hc with
  | nil => intro hb; exact absurd h.seen_start hb
  | @snoc n a b f hc hop ih =>
    intro hb
    by_cases ha : a ∈ s.seenPlayers
    · rcases h.seen_cases a ha with ⟨p, hp, hl⟩ | hcl
      · refine ⟨p, hp, ?_⟩
        have := h.minimal p hp n (hl ▸ hc)
        omega
      · exact absurd (hcl f b hop) hb
    · obtain ⟨p, hp, hl⟩ := ih ha
      exact ⟨p, hp, by omega⟩

theorem inv_initial (start endPlayer : string) (db : Database) :
    Inv db start endPlayer [path.new start] (initialState start) where
  seen_start := by simp [initialState, setInsert]
  seen_cases := by
    intro a ha
    left
    simp [initialState, setInsert] at ha
    exact ⟨path.new start, by simp, by simp [ha, getLastPlayer_new]⟩
  minimal := by
    intro p hp n _
    simp at hp
    simp [hp, path.getLength, path.new]
  sorted := by simp
  close := by
    intro p hp q hq
    simp at hp hq
    simp [hp, hq]
  valid := by
    intro p hp
    simp at hp
    simp [hp, path.new, path.Valid, ValidFrom]
  pending_seen := by
    intro p hp
    simp at hp
    simp [hp, initialState, setInsert, getLastPlayer_new]
  end_pending := by
    intro he
    simp [initialState, setInsert] at he
    exact ⟨path.new start, by simp, by simp [he, getLastPlayer_new]⟩
  seen_reach := by
    intro a ha
    simp [initialState, setInsert] at ha
    exact Or.inl ha
  seen_nodup := by simp [initialState, setInsert]
  enqueued_last := by simp [initialState, setInsert, getLastPlayer_new]
  films_nodup := by simp [initialState]
  cast_calls := by simp [initialState]
  count := by simp [initialState]

theorem filmsClosed_initial (start : string) (db : Database) :
    FilmsClosed db (initialState start) := by
  intro f hf
  simp [initialState] at hf

theorem visitCostar_seen {cur : path} {credit : film} {s : SearchState} {costar : string}
    (hs : costar ∈ s.seenPlayers) : visitCostar cur credit s costar = s := by
  simp [visitCostar, hs]

theorem visitCostar_unseen {cur : path} {credit : film} {s : SearchState} {costar : string}
    (hs : costar ∉ s.seenPlayers) :
    visitCostar cur credit s costar =
      { s with
        seenPlayers := costar :: s.seenPlayers
        queue := s.queue ++ [cur.addConnection credit costar]
        enqueued := cur.addConnection credit costar :: s.enqueued } := by
  simp [visitCostar, hs, setInsert]

theorem visitCostar_inv {cur : path} {credit : film} {s : SearchState} {costar : string}
    (h : Inv db start endPlayer (cur :: s.queue) s)
    (hop : Hop db cur.getLastPlayer credit costar) :
    Inv db start endPlayer (cur :: (visitCostar cur credit s costar).queue)
      (visitCostar cur credit s costar) := by
  by_cases hs : costar ∈ s.seenPlayers
  · rw [visitCostar_seen hs]; exact h
  · rw [visitCostar_unseen hs]
    have hcur : ∀ p ∈ cur :: s.queue, cur.getLength ≤ p.getLength := by
      intro p hp
      rcases List.mem_cons.1 hp with rfl | hp
      · exact le_rfl
      · exact (List.pairwise_cons.1 h.sorted).1 p hp
    have hnew : (cur.addConnection credit costar).getLength = cur.getLength + 1 :=
      getLength_addConnection _ _ _
    have hlast : (cur.addConnection credit costar).getLastPlayer = costar :=
      getLastPlayer_addConnection _ _ _
    have hmem : ∀ p, p ∈ cur :: (s.queue ++ [cur.addConnection credit costar]) ↔
        p ∈ cur :: s.queue ∨ p = cur.addConnection credit costar := by
      intro p; simp [or_assoc]
    constructor
    · exact List.mem_cons_of_mem _ h.seen_start
    · intro a ha
      rcases List.mem_cons.1 ha with rfl | ha
      · exact Or.inl ⟨_, (hmem _).2 (Or.inr rfl), hlast⟩
      · rcases h.seen_cases a ha with ⟨p, hp, hl⟩ | hcl
        · exact Or.inl ⟨p, (hmem _).2 (Or.inl hp), hl⟩
        · exact Or.inr fun f b hfb => List.mem_cons_of_mem _ (hcl f b hfb)
    · intro p hp n hc
      rcases (hmem p).1 hp with hp | rfl
      · exact h.minimal p hp n hc
      · rw [hlast] at hc
        obtain ⟨q, hq, hlt⟩ := frontier h n costar hc hs
        have := hcur q hq
        omega
    · show List.Pairwise _ (cur :: (s.queue ++ [cur.addConnection credit costar]))
      rw [← List.cons_append, List.pairwise_append]
      refine ⟨h.sorted, by simp, ?_⟩
      intro p hp q hq
      simp only [List.mem_singleton] at hq
      subst hq
      have := h.close cur (List.mem_cons_self _ _) p hp
      omega
    · intro p hp q hq
      rcases (hmem p).1 hp with hp | rfl <;> rcases (hmem q).1 hq with hq | rfl
      · exact h.close p hp q hq
      · have := hcur p hp; omega
      · have := h.close cur (List.mem_cons_self _ _) q hq; omega
      · omega
    · intro p hp
      rcases (hmem p).1 hp with hp | rfl
      · exact h.valid p hp
      · have hv := h.valid cur (List.mem_cons_self _ _)
        exact ⟨hv.1, valid_addConnection db cur credit costar hv.2 hop⟩
    · intro p hp
      rcases (hmem p).1 hp with hp | rfl
      · exact List.mem_cons_of_mem _ (h.pending_seen p hp)
      · rw [hlast]; exact List.mem_cons_self _ _
    · intro he
      rcases List.mem_cons.1 he with rfl | he
      · exact ⟨_, (hmem _).2 (Or.inr rfl), hlast⟩
      · obtain ⟨p, hp, hl⟩ := h.end_pending he
        exact ⟨p, (hmem _).2 (Or.inl hp), hl⟩
    · intro a ha
      rcases List.mem_cons.1 ha with rfl | ha
      · right
        have hv := h.valid cur (List.mem_cons_self _ _)
        have hc := chain_of_valid db cur hv.2
        rw [hv.1] at hc
        exact ⟨cur.getLength, Chain.snoc credit hc hop⟩
      · exact h.seen_reach a ha
    · exact List.nodup_cons.2 ⟨hs, h.seen_nodup⟩
    · show List.map _ (_ :: s.enqueued) = costar :: s.seenPlayers
      rw [List.map_cons, hlast, h.enqueued_last]
    · exact h.films_nodup
    · exact h.cast_calls
    · show s.iterations + (s.queue ++ [_]).length = (_ :: s.enqueued).length
      have := h.count
      simp only [List.length_append, List.length_cons, List.length_nil]
      omega

theorem grows_refl (s : SearchState) : Grows s s :=
  ⟨fun _ h => h, fun _ h => h, rfl, rfl⟩

theorem grows_trans {s s' s'' : SearchState} (h : Grows s s') (h' : Grows s' s'') :
    Grows s s'' :=
  ⟨fun a ha => h'.players a (h.players a ha), fun f hf => h'.films f (h.films f hf),
    h'.iterations.trans h.iterations, h'.creditsCalls.trans h.creditsCalls⟩

theorem visitCostar_grows (cur : path) (credit : film) (s : SearchState) (costar : string) :
    Grows s (visitCostar cur credit s costar) ∧
      (visitCostar cur credit s costar).seenFilms = s.seenFilms ∧
      costar ∈ (visitCostar cur credit s costar).seenPlayers := by
  by_cases hs : costar ∈ s.seenPlayers
  · rw [visitCostar_seen hs]; exact ⟨grows_refl s, rfl, hs⟩
  · rw [visitCostar_unseen hs]
    exact ⟨⟨fun a ha => List.mem_cons_of_mem _ ha, fun _ h => h, rfl, rfl⟩, rfl,
      List.mem_cons_self _ _⟩

theorem castLoop_inv {cur : path} {credit : film} :
    ∀ (cast : List string) (s : SearchState),
      Inv db start endPlayer (cur :: s.queue) s →
      (∀ c ∈ cast, Hop db cur.getLastPlayer credit c) →
      Inv db start endPlayer (cur :: (cast.foldl (visitCostar cur credit) s).queue)
          (cast.foldl (visitCostar cur credit) s) ∧
        Grows s (cast.foldl (visitCostar cur credit) s) ∧
        (cast.foldl (visitCostar cur credit) s).seenFilms = s.seenFilms ∧
        ∀ c ∈ cast, c ∈ (cast.foldl (visitCostar cur credit) s).seenPlayers
  | [], s, h, _ => ⟨h, grows_refl s, rfl, fun _ hc => absurd hc (List.not_mem_nil _)⟩
  | c :: rest, s, h, hop => by
    have h1 := visitCostar_inv h (hop c (List.mem_cons_self _ _))
    obtain ⟨g1, f1, m1⟩ := visitCostar_grows cur credit s c
    obtain ⟨h2, g2, f2, m2⟩ := castLoop_inv rest (visitCostar cur credit s c) h1
      (fun x hx => hop x (List.mem_cons_of_mem _ hx))
    refine ⟨h2, grows_trans g1 g2, f2.trans f1, ?_⟩
    intro x hx
    rcases List.mem_cons.1 hx with rfl | hx
    · exact g2.players _ m1
    · exact m2 x hx

theorem visitCredit_inv {cur : path} {credit : film} {s : SearchState}
    (h : Inv db start endPlayer (cur :: s.queue) s) (hc : FilmsClosed db s)
    (hcred : ∃ credits, db.getCredits cur.getLastPlayer = some credits ∧ credit ∈ credits) :
    Inv db start endPlayer (cur :: (visitCredit db cur s credit).queue)
        (visitCredit db cur s credit) ∧
      FilmsClosed db (visitCredit db cur s credit) ∧
      Grows s (visitCredit db cur s credit) ∧
      credit ∈ (visitCredit db cur s credit).seenFilms := by
  by_cases hs : credit ∈ s.seenFilms
  · have e : visitCredit db cur s credit = s := by simp [visitCredit, hs]
    rw [e]; exact ⟨h, hc, grows_refl s, hs⟩
  · have h1 : Inv db start endPlayer (cur :: s.queue)
        { s with seenFilms := credit :: s.seenFilms, castCalls := credit :: s.castCalls } :=
      { h with
        films_nodup := List.nodup_cons.2 ⟨hs, h.films_nodup⟩
        cast_calls := by show credit :: s.castCalls = credit :: s.seenFilms; rw [h.cast_calls] }
    cases hcast : db.getCast credit with
    | none =>
      have e : visitCredit db cur s credit =
          { s with seenFilms := credit :: s.seenFilms, castCalls := credit :: s.castCalls } := by
        simp [visitCredit, hs, hcast, setInsert]
      rw [e]
      refine ⟨h1, ?_, ⟨fun _ ha => ha, fun f hf => List.mem_cons_of_mem _ hf, rfl, rfl⟩,
        List.mem_cons_self _ _⟩
      intro f hf cast hfc b hb
      rcases List.mem_cons.1 hf with rfl | hf
      · rw [hcast] at hfc; cases hfc
      · exact hc f hf cast hfc b hb
    | some cast =>
      have e : visitCredit db cur s credit = cast.foldl (visitCostar cur credit)
          { s with seenFilms := credit :: s.seenFilms, castCalls := credit :: s.castCalls } := by
        simp [visitCredit, hs, hcast, setInsert]
      rw [e]
      obtain ⟨h2, g2, f2, m2⟩ := castLoop_inv cast
        { s with seenFilms := credit :: s.seenFilms, castCalls := credit :: s.castCalls } h1
        (fun c hcm => ⟨hcred, cast, hcast, hcm⟩)
      refine ⟨h2, ?_, ⟨fun a ha => g2.players a ha, ?_, g2.iterations, g2.creditsCalls⟩, ?_⟩
      · intro f hf cast' hfc b hb
        rw [f2] at hf
        rcases List.mem_cons.1 hf with rfl | hf
        · rw [hcast] at hfc
          cases hfc
          exact m2 b hb
        · exact g2.players b (hc f hf cast' hfc b hb)
      · intro f hf
        rw [f2]; exact List.mem_cons_of_mem _ hf
      · rw [f2]; exact List.mem_cons_self _ _

theorem creditLoop_inv {cur : path} :
    ∀ (credits : List film) (s : SearchState),
      Inv db start endPlayer (cur :: s.queue) s → FilmsClosed db s →
      (∀ c ∈ credits, ∃ l, db.getCredits cur.getLastPlayer = some l ∧ c ∈ l) →
      Inv db start endPlayer (cur :: (credits.foldl (visitCredit db cur) s).queue)
          (credits.foldl (visitCredit db cur) s) ∧
        FilmsClosed db (credits.foldl (visitCredit db cur) s) ∧
        Grows s (credits.foldl (visitCredit db cur) s) ∧
        ∀ c ∈ credits, c ∈ (credits.foldl (visitCredit db cur) s).seenFilms
  | [], s, h, hc, _ => ⟨h, hc, grows_refl s, fun _ hx => absurd hx (List.not_mem_nil _)⟩
  | c :: rest, s, h, hc, hcred => by
    obtain ⟨h1, c1, g1, m1⟩ := visitCredit_inv h hc (hcred c (List.mem_cons_self _ _))
    obtain ⟨h2, c2, g2, m2⟩ := creditLoop_inv rest (visitCredit db cur s c) h1 c1
      (fun x hx => hcred x (List.mem_cons_of_mem _ hx))
    refine ⟨h2, c2, grows_trans g1 g2, ?_⟩
    intro x hx
    rcases List.mem_cons.1 hx with rfl | hx
    · exact g2.films _ m1
    · exact m2 x hx

theorem inv_drop {cur : path} {s : SearchState}
    (h : Inv db start endPlayer (cur :: s.queue) s)
    (hclosed : ∀ f b, Hop db cur.getLastPlayer f b → b ∈ s.seenPlayers)
    (hne : cur.getLastPlayer ≠ endPlayer) :
    Inv db start endPlayer s.queue s where
  seen_start := h.seen_start
  seen_cases := by
    intro a ha
    rcases h.seen_cases a ha with ⟨p, hp, hl⟩ | hcl
    · rcases List.mem_cons.1 hp with rfl | hp
      · right; rw [← hl]; exact hclosed
      · exact Or.inl ⟨p, hp, hl⟩
    · exact Or.inr hcl
  minimal := fun p hp => h.minimal p (List.mem_cons_of_mem _ hp)
  sorted := (List.pairwise_cons.1 h.sorted).2
  close := fun p hp q hq => h.close p (List.mem_cons_of_mem _ hp) q (List.mem_cons_of_mem _ hq)
  valid := fun p hp => h.valid p (List.mem_cons_of_mem _ hp)
  pending_seen := fun p hp => h.pending_seen p (List.mem_cons_of_mem _ hp)
  end_pending := by
    intro he
    obtain ⟨p, hp, hl⟩ := h.end_pending he
    rcases List.mem_cons.1 hp with rfl | hp
    · exact absurd hl hne
    · exact ⟨p, hp, hl⟩
  seen_reach := h.seen_reach
  seen_nodup := h.seen_nodup
  enqueued_last := h.enqueued_last
  films_nodup := h.films_nodup
  cast_calls := h.cast_calls
  count := h.count

theorem expand_inv {cur : path} {s : SearchState}
    (h : Inv db start endPlayer (cur :: s.queue) s) (hc : FilmsClosed db s)
    (hne : cur.getLastPlayer ≠ endPlayer) :
    Inv db start endPlayer (expand db cur s).queue (expand db cur s) ∧
      FilmsClosed db (expand db cur s) ∧
      (expand db cur s).iterations = s.iterations := by
  have h1 : Inv db start endPlayer (cur :: s.queue)
      { s with creditsCalls := cur.getLastPlayer :: s.creditsCalls } := { h with }
  have c1 : FilmsClosed db { s with creditsCalls := cur.getLastPlayer :: s.creditsCalls } := hc
  cases hcr : db.getCredits cur.getLastPlayer with
  | none =>
    have e : expand db cur s = { s with creditsCalls := cur.getLastPlayer :: s.creditsCalls } := by
      simp [expand, hcr]
    rw [e]
    refine ⟨inv_drop h1 ?_ hne, c1, rfl⟩
    rintro f b ⟨⟨credits, hcs, _⟩, _⟩
    rw [hcr] at hcs; cases hcs
  | some credits =>
    have e : expand db cur s = credits.foldl (visitCredit db cur)
        { s with creditsCalls := cur.getLastPlayer :: s.creditsCalls } := by
      simp [expand, hcr]
    rw [e]
    obtain ⟨h2, c2, g2, m2⟩ := creditLoop_inv credits
      { s with creditsCalls := cur.getLastPlayer :: s.creditsCalls } h1 c1
      (fun c hm => ⟨credits, hcr, hm⟩)
    refine ⟨inv_drop h2 ?_ hne, c2, g2.iterations⟩
    rintro f b ⟨⟨credits', hcs, hf⟩, cast, hcast, hb⟩
    rw [hcr] at hcs
    cases hcs
    exact c2 f (m2 f hf) cast hcast b hb

/-! ## The loop -/

theorem bfsLoop_spec : ∀ (fuel : Nat) (s : SearchState) (r : path × SearchState),
    Inv db start endPlayer s.queue s → FilmsClosed db s →
    bfsLoop db endPlayer fuel s = some r →
    ∃ pending, Inv db start endPlayer pending r.2 ∧ Post db start endPlayer pending r.1
  | 0, s, r, h, _, hr => by
    cases hq : s.queue with
    | nil =>
      simp only [bfsLoop, hq, Option.some.injEq] at hr
      subst hr
      rw [hq] at h
      exact ⟨[], h, Or.inl ⟨rfl, rfl⟩⟩
    | cons cur rest => simp [bfsLoop, hq] at hr
  | fuel + 1, s, r, h, hc, hr => by
    cases hq : s.queue with
    | nil =>
      simp only [bfsLoop, hq, Option.some.injEq] at hr
      subst hr
      rw [hq] at h
      exact ⟨[], h, Or.inl ⟨rfl, rfl⟩⟩
    | cons cur rest =>
      have h0 : Inv db start endPlayer (cur :: rest) s := by rw [hq] at h; exact h
      have h1 : Inv db start endPlayer (cur :: rest)
          { s with queue := rest, iterations := s.iterations + 1 } :=
        { h0 with
          count := by
            have := h0.count
            rw [hq, List.length_cons] at this
            show s.iterations + 1 + rest.length = s.enqueued.length
            omega }
      by_cases he : cur.getLastPlayer = endPlayer
      · simp only [bfsLoop, hq, he, if_true, Option.some.injEq] at hr
        subst hr
        have hv := h0.valid cur (List.mem_cons_self _ _)
        exact ⟨cur :: rest, h1, Or.inr ⟨he, hv.1, hv.2,
          fun n hn => h0.minimal cur (List.mem_cons_self _ _) n (he ▸ hn)⟩⟩
      · simp only [bfsLoop, hq, he, if_false] at hr
        obtain ⟨h2, c2, _⟩ := expand_inv
          (s := { s with queue := rest, iterations := s.iterations + 1 }) h1 hc he
        exact bfsLoop_spec fuel _ r h2 c2 hr

theorem bfsLoop_mono : ∀ (fuel : Nat) (s : SearchState) (r : path × SearchState),
    bfsLoop db endPlayer fuel s = some r → ∀ k, bfsLoop db endPlayer (fuel + k) s = some r
  | 0, s, r, hr, k => by
    cases hq : s.queue with
    | nil =>
      simp only [bfsLoop, hq] at hr
      cases k <;> simp [bfsLoop, hq, hr]
    | cons cur rest => simp [bfsLoop, hq] at hr
  | fuel + 1, s, r, hr, k => by
    rw [Nat.add_right_comm]
    cases hq : s.queue with
    | nil =>
      simp only [bfsLoop, hq] at hr
      simp [bfsLoop, hq, hr]
    | cons cur rest =>
      by_cases he : cur.getLastPlayer = endPlayer
      · simp only [bfsLoop, hq, he, if_true] at hr ⊢
        exact hr
      · simp only [bfsLoop, hq, he, if_false] at hr ⊢
        exact bfsLoop_mono fuel _ r hr k

theorem seen_length_le {pending : List path} {s : SearchState} (R : Finset string)
    (hR : ∀ n a, Chain db start (n + 1) a → a ∈ R)
    (h : Inv db start endPlayer pending s) : s.seenPlayers.length ≤ R.card + 1 := by
  have hsub : s.seenPlayers.toFinset ⊆ insert start R := by
    intro a ha
    rw [List.mem_toFinset] at ha
    rcases h.seen_reach a ha with rfl | ⟨n, hn⟩
    · exact Finset.mem_insert_self _ _
    · exact Finset.mem_insert_of_mem (hR n a hn)
  calc s.seenPlayers.length = s.seenPlayers.toFinset.card :=
        (List.toFinset_card_of_nodup h.seen_nodup).symm
    _ ≤ (insert start R).card := Finset.card_le_card hsub
    _ ≤ R.card + 1 := Finset.card_insert_le _ _

theorem iterations_le {pending : List path} {s : SearchState} (R : Finset string)
    (hR : ∀ n a, Chain db start (n + 1) a → a ∈ R)
    (h : Inv db start endPlayer pending s) :
    s.iterations + s.queue.length ≤ R.card + 1 := by
  have h1 := seen_length_le R hR h
  have h2 := h.count
  have h3 : s.enqueued.length = s.seenPlayers.length := by
    rw [← h.enqueued_last, List.length_map]
  omega

theorem bfsLoop_terminates (R : Finset string)
    (hR : ∀ n a, Chain db start (n + 1) a → a ∈ R) :
    ∀ (fuel : Nat) (s : SearchState), Inv db start endPlayer s.queue s → FilmsClosed db s →
      R.card + 1 ≤ fuel + s.iterations → ∃ r, bfsLoop db endPlayer fuel s = some r
  | 0, s, h, _, hf => by
    have hle := iterations_le R hR h
    cases hq : s.queue with
    | nil => exact ⟨(path.new [], s), by simp [bfsLoop, hq]⟩
    | cons cur rest =>
      rw [hq, List.length_cons] at hle
      omega
  | fuel + 1, s, h, hc, hf => by
    cases hq : s.queue with
    | nil => exact ⟨(path.new [], s), by simp [bfsLoop, hq]⟩
    | cons cur rest =>
      have h0 : Inv db start endPlayer (cur :: rest) s := by rw [hq] at h; exact h
      have h1 : Inv db start endPlayer (cur :: rest)
          { s with queue := rest, iterations := s.iterations + 1 } :=
        { h0 with
          count := by
            have := h0.count
            rw [hq, List.length_cons] at this
            show s.iterations + 1 + rest.length = s.enqueued.length
            omega }
      by_cases he : cur.getLastPlayer = endPlayer
      · exact ⟨(cur, { s with queue := rest, iterations := s.iterations + 1 }),
          by simp [bfsLoop, hq, he]⟩
      · obtain ⟨h2, c2, i2⟩ := expand_inv
          (s := { s with queue := rest, iterations := s.iterations + 1 }) h1 hc he
        obtain ⟨r, hr⟩ := bfsLoop_terminates R hR fuel _ h2 c2
          (by rw [i2]; show R.card + 1 ≤ fuel + (s.iterations + 1); omega)
        exact ⟨r, by simp only [bfsLoop, hq, he, if_false]; exact hr⟩

theorem no_chain_of_empty {s : SearchState} (h : Inv db start endPlayer [] s) :
    ∀ n, ¬ Chain db start n endPlayer := by
  intro n hc
  by_cases he : endPlayer ∈ s.seenPlayers
  · obtain ⟨p, hp, _⟩ := h.end_pending he
    exact absurd hp (List.not_mem_nil _)
  · obtain ⟨p, hp, _⟩ := frontier h n endPlayer hc he
    exact absurd hp (List.not_mem_nil _)

theorem run_total (db : Database) (start endPlayer : string) (R : Finset string)
    (hR : ∀ n a, Chain db start (n + 1) a → a ∈ R) :
    ∃ r, (∀ fuel, R.card + 1 ≤ fuel → findShortestPathRun fuel start endPlayer db = some r) ∧
      ∃ pending, Inv db start endPlayer pending r.2 ∧ Post db start endPlayer pending r.1 := by
  have h0 := inv_initial start endPlayer db
  have c0 := filmsClosed_initial start db
  obtain ⟨r, hr⟩ := bfsLoop_terminates R hR (R.card + 1) (initialState start) h0 c0
    (Nat.le_add_right _ _)
  refine ⟨r, ?_, bfsLoop_spec _ _ r h0 c0 hr⟩
  intro fuel hf
  obtain ⟨k, rfl⟩ := Nat.exists_eq_add_of_le hf
  exact bfsLoop_mono _ _ r hr k

/-! ## Termination when a chain to `endPlayer` exists -/

theorem mem_neighbours {a b : string} {f : film} (h : Hop db a f b) : b ∈ neighbours db a := by
  obtain ⟨⟨credits, hc, hf⟩, cast, hcast, hb⟩ := h
  simp only [neighbours, hc, List.mem_flatMap]
  exact ⟨f, hf, by simpa [hcast] using hb⟩

theorem mem_level {n : Nat} {a : string} (h : Chain db start n a) : a ∈ level db start n := by
  induction h with
  | nil => simp [level]
  | snoc f _ hop ih =>
    simp only [level, List.mem_flatMap]
    exact ⟨_, ih, mem_neighbours hop⟩

theorem mem_ball {n d : Nat} {a : string} (hn : n ≤ d) (h : Chain db start n a) :
    a ∈ ball db start d := by
  simp only [ball, List.mem_flatMap, List.mem_range]
  exact ⟨n, by omega, mem_level h⟩

theorem visitCostar_all (P : string → Prop) (cur : path) (credit : film) (s : SearchState)
    (costar : string) (hs : ∀ a ∈ s.seenPlayers, P a) (hc : P costar) :
    ∀ a ∈ (visitCostar cur credit s costar).seenPlayers, P a := by
  by_cases hm : costar ∈ s.seenPlayers
  · rw [visitCostar_seen hm]; exact hs
  · rw [visitCostar_unseen hm]
    intro a ha
    rcases List.mem_cons.1 ha with rfl | ha
    · exact hc
    · exact hs a ha

theorem castLoop_all (P : string → Prop) (cur : path) (credit : film) :
    ∀ (cast : List string) (s : SearchState), (∀ a ∈ s.seenPlayers, P a) →
      (∀ c ∈ cast, P c) → ∀ a ∈ (cast.foldl (visitCostar cur credit) s).seenPlayers, P a
  | [], _, hs, _ => hs
  | c :: rest, s, hs, hc =>
    castLoop_all P cur credit rest _
      (visitCostar_all P cur credit s c hs (hc c (List.mem_cons_self _ _)))
      (fun x hx => hc x (List.mem_cons_of_mem _ hx))

theorem visitCredit_all (P : string → Prop) (cur : path) (s : SearchState) (credit : film)
    (hs : ∀ a ∈ s.seenPlayers, P a)
    (hc : ∀ cast, db.getCast credit = some cast → ∀ c ∈ cast, P c) :
    ∀ a ∈ (visitCredit db cur s credit).seenPlayers, P a := by
  unfold visitCredit
  split_ifs
  · exact hs
  · cases hcast : db.getCast credit with
    | none => exact hs
    | some cast => exact castLoop_all P cur credit cast _ hs (hc cast hcast)

theorem creditLoop_all (P : string → Prop) (cur : path) :
    ∀ (credits : List film) (s : SearchState), (∀ a ∈ s.seenPlayers, P a) →
      (∀ f ∈ credits, ∀ cast, db.getCast f = some cast → ∀ c ∈ cast, P c) →
      ∀ a ∈ (credits.foldl (visitCredit db cur) s).seenPlayers, P a
  | [], _, hs, _ => hs
  | f :: rest, s, hs, hc =>
    creditLoop_all P cur rest _
      (visitCredit_all P cur s f hs (hc f (List.mem_cons_self _ _)))
      (fun x hx => hc x (List.mem_cons_of_mem _ hx))

theorem expand_all (P : string → Prop) (cur : path) (s : SearchState)
    (hs : ∀ a ∈ s.seenPlayers, P a) (hop : ∀ f b, Hop db cur.getLastPlayer f b → P b) :
    ∀ a ∈ (expand db cur s).seenPlayers, P a := by
  unfold expand
  cases hcr : db.getCredits cur.getLastPlayer with
  | none => exact hs
  | some credits =>
    exact creditLoop_all P cur credits _ hs
      (fun f hf cast hcast c hc => hop f c ⟨⟨credits, hcr, hf⟩, cast, hcast, hc⟩)

theorem head_length_le {cur : path} {rest : List path} {s : SearchState} {d : Nat}
    (h : Inv db start endPlayer (cur :: rest) s) (hd : Chain db start d endPlayer) :
    cur.getLength ≤ d := by
  have hcur : ∀ p ∈ cur :: rest, cur.getLength ≤ p.getLength := by
    intro p hp
    rcases List.mem_cons.1 hp with rfl | hp
    · exact le_rfl
    · exact (List.pairwise_cons.1 h.sorted).1 p hp
  by_cases he : endPlayer ∈ s.seenPlayers
  · obtain ⟨q, hq, hl⟩ := h.end_pending he
    have h1 := h.minimal q hq d (hl ▸ hd)
    have h2 := hcur q hq
    omega
  · obtain ⟨p, hp, hlt⟩ := frontier h d endPlayer hd he
    have := hcur p hp
    omega

theorem bfsLoop_reaches {d : Nat} (hd : Chain db start d endPlayer) :
    ∀ (fuel : Nat) (s : SearchState), Inv db start endPlayer s.queue s → FilmsClosed db s →
      (∀ a ∈ s.seenPlayers, ∃ n, n ≤ d + 1 ∧ Chain db start n a) →
      (ball db start (d + 1)).length ≤ fuel + s.iterations →
      ∃ r, bfsLoop db endPlayer fuel s = some r := by
  have hbound : ∀ (s : SearchState), Inv db start endPlayer s.queue s →
      (∀ a ∈ s.seenPlayers, ∃ n, n ≤ d + 1 ∧ Chain db start n a) →
      s.iterations + s.queue.length ≤ (ball db start (d + 1)).length := by
    intro s h hw
    have hsub : s.seenPlayers ⊆ ball db start (d + 1) := by
      intro a ha
      obtain ⟨n, hn, hc⟩ := hw a ha
      exact mem_ball hn hc
    have h1 := (List.Nodup.subperm h.seen_nodup hsub).length_le
    have h2 := h.count
    have h3 : s.enqueued.length = s.seenPlayers.length := by
      rw [← h.enqueued_last, List.length_map]
    omega
  intro fuel
  induction fuel with
  | zero =>
    intro s h _ hw hf
    have hle := hbound s h hw
    cases hq : s.queue with
    | nil => exact ⟨(path.new [], s), by simp [bfsLoop, hq]⟩
    | cons cur rest =>
      rw [hq, List.length_cons] at hle
      omega
  | succ fuel ih =>
    intro s h hc hw hf
    cases hq : s.queue with
    | nil => exact ⟨(path.new [], s), by simp [bfsLoop, hq]⟩
    | cons cur rest =>
      have h0 : Inv db start endPlayer (cur :: rest) s := by rw [hq] at h; exact h
      have h1 : Inv db start endPlayer (cur :: rest)
          { s with queue := rest, iterations := s.iterations + 1 } :=
        { h0 with
          count := by
            have := h0.count
            rw [hq, List.length_cons] at this
            show s.iterations + 1 + rest.length = s.enqueued.length
            omega }
      by_cases he : cur.getLastPlayer = endPlayer
      · exact ⟨(cur, { s with queue := rest, iterations := s.iterations + 1 }),
          by simp [bfsLoop, hq, he]⟩
      · obtain ⟨h2, c2, i2⟩ := expand_inv
          (s := { s with queue := rest, iterations := s.iterations + 1 }) h1 hc he
        have hlen := head_length_le h0 hd
        have hv := h0.valid cur (List.mem_cons_self _ _)
        have hcc := chain_of_valid db cur hv.2
        rw [hv.1] at hcc
        have hw2 := @expand_all db (fun a => ∃ n, n ≤ d + 1 ∧ Chain db start n a) cur
          { s with queue := rest, iterations := s.iterations + 1 } hw
          (fun f b hop => ⟨cur.getLength + 1, by omega, Chain.snoc f hcc hop⟩)
        obtain ⟨r, hr⟩ := ih _ h2 c2 hw2
          (by rw [i2]; show _ ≤ fuel + (s.iterations + 1); omega)
        exact ⟨r, by simp only [bfsLoop, hq, he, if_false]; exact hr⟩

theorem run_reaches (db : Database) (start endPlayer : string) (d : Nat)
    (hd : Chain db start d endPlayer) :
    ∃ r, (∀ fuel, (ball db start (d + 1)).length ≤ fuel →
        findShortestPathRun fuel start endPlayer db = some r) ∧
      ∃ pending, Inv db start endPlayer pending r.2 ∧ Post db start endPlayer pending r.1 := by
  have h0 := inv_initial start endPlayer db
  have c0 := filmsClosed_initial start db
  obtain ⟨r, hr⟩ := bfsLoop_reaches hd (ball db start (d + 1)).length (initialState start) h0 c0
    (by
      intro a ha
      simp [initialState, setInsert] at ha
      exact ⟨0, by omega, ha ▸ Chain.nil⟩)
    (Nat.le_add_right _ _)
  refine ⟨r, ?_, bfsLoop_spec _ _ r h0 c0 hr⟩
  intro fuel hf
  obtain ⟨k, rfl⟩ := Nat.exists_eq_add_of_le hf
  exact bfsLoop_mono _ _ r hr k

end Search

/-! ## The small database -/

theorem demo_hop {a b : string} {f : film} (h : Hop demoDb a f b) : b ∈ demoActors := by
  obtain ⟨_, cast, hc, hb⟩ := h
  simp only [demoDb] at hc
  split_ifs at hc <;> cases hc <;> simp at hb <;> rcases hb with rfl | rfl <;>
    simp [demoActors]

theorem demo_reach : ∀ n a, Chain demoDb actorA (n + 1) a → a ∈ demoActors := by
  intro n a h
  cases h with
  | snoc f _ hop => exact demo_hop hop

theorem demo_hop1 : Hop demoDb actorA film1 actorB :=
  ⟨⟨[film1], by decide, by decide⟩, [actorA, actorB], by decide, by decide⟩

theorem demo_hop2 : Hop demoDb actorB film2 actorC :=
  ⟨⟨[film1, film2], by decide, by decide⟩, [actorB, actorC], by decide, by decide⟩

theorem demo_chain : Chain demoDb actorA 2 actorC :=
  Chain.snoc film2 (Chain.snoc film1 Chain.nil demo_hop1) demo_hop2

theorem demo_min : ∀ n, Chain demoDb actorA n actorC → 2 ≤ n := by
  intro n h
  match n, h with
  | 0, h => cases h
  | 1, h =>
    cases h with
    | snoc f h0 hop =>
      cases h0
      obtain ⟨⟨credits, hcr, hf⟩, cast, hc, hb⟩ := hop
      have e1 : demoDb.getCredits actorA = some [film1] := by decide
      rw [e1] at hcr
      cases hcr
      simp only [List.mem_singleton] at hf
      subst hf
      have e2 : demoDb.getCast film1 = some [actorA, actorB] := by decide
      rw [e2] at hc
      cases hc
      revert hb
      decide
  | n + 2, _ => omega

theorem demo_no_chain : ∀ n, ¬ Chain demoDb actorA (n + 1) actorD := by
  intro n h
  have := demo_reach n actorD h
  revert this
  decide

/-! ## The search: main results -/

/-- C1. Optimality of the breadth-first search.  Let `d` be the graph distance
from `start` to `endPlayer`: a chain of `d` hops exists and none has fewer.
Then `findShortestPath` returns, for every bound on the iterations from the
number of chain ends within `d + 1` hops onwards, one and the same path; that
path is a chain of hops of the database from `start`, its last player is
`endPlayer`, and it has exactly `d` hops, so that no chain to `endPlayer` has
fewer hops.  (The hypothesis `start ≠ endPlayer` is not needed: for equal names
`d` is zero.) -/
theorem findShortestPath_optimal (db : Database) (start endPlayer : string) (d : Nat)
    (hd : Chain db start d endPlayer) (hmin : ∀ n, Chain db start n endPlayer → d ≤ n) :
    ∃ p, (∀ fuel, (ball db start (d + 1)).length ≤ fuel →
        findShortestPath fuel start endPlayer db = some p) ∧
      p.getLastPlayer = endPlayer ∧ p.startPlayer = start ∧ p.Valid db ∧ p.getLength = d ∧
      ∀ n, Chain db start n endPlayer → p.getLength ≤ n := by
  obtain ⟨r, hrun, pending, hinv, hpost⟩ := run_reaches db start endPlayer d hd
  refine ⟨r.1, fun fuel hf => by simp [findShortestPath, hrun fuel hf], ?_⟩
  rcases hpost with ⟨_, hp⟩ | ⟨hl, hs, hv, hm⟩
  · subst hp
    exact absurd hd (no_chain_of_empty hinv d)
  · refine ⟨hl, hs, hv, le_antisymm (hm d hd) (hmin _ ?_), hm⟩
    have hc := chain_of_valid db r.1 hv
    rwa [hs, hl] at hc

/-- Witness of C1 on the small database: from `actorA` to `actorC` the distance
is two, and the path found is `actorA - film1 - actorB - film2 - actorC`. -/
theorem findShortestPath_optimal_witness :
    Chain demoDb actorA 2 actorC ∧
    findShortestPath 4 actorA actorC demoDb =
      some ⟨actorA, [(film1, actorB), (film2, actorC)]⟩ ∧
    ∃ p, (∀ fuel, (ball demoDb actorA (2 + 1)).length ≤ fuel →
        findShortestPath fuel actorA actorC demoDb = some p) ∧
      p.getLastPlayer = actorC ∧ p.startPlayer = actorA ∧ p.Valid demoDb ∧ p.getLength = 2 ∧
      ∀ n, Chain demoDb actorA n actorC → p.getLength ≤ n :=
  ⟨demo_chain, by decide,
    findShortestPath_optimal demoDb actorA actorC 2 demo_chain demo_min⟩

/-- C2. Every path that `findShortestPath` returns is a valid chain: each hop
`(f, b)` that follows an actor `a` has `f` among the films `getCredits` gives
for `a` and `b` among the names `getCast` gives for `f`; and a result other than
`path("")` starts at `startPlayer` and ends at `endPlayer`. -/
theorem findShortestPath_valid (db : Database) (start endPlayer : string) (fuel : Nat)
    (p : path) (h : findShortestPath fuel start endPlayer db = some p) :
    p.Valid db ∧ (p ≠ path.new [] → p.startPlayer = start ∧ p.getLastPlayer = endPlayer) := by
  simp only [findShortestPath, Option.map_eq_some'] at h
  obtain ⟨r, hr, rfl⟩ := h
  obtain ⟨pending, _, hpost⟩ := bfsLoop_spec fuel (initialState start) r
    (inv_initial start endPlayer db) (filmsClosed_initial start db) hr
  rcases hpost with ⟨hp, _⟩ | ⟨hl, hs, hv, _⟩
  · rw [hp]
    exact ⟨trivial, fun hne => absurd rfl hne⟩
  · exact ⟨hv, fun _ => ⟨hs, hl⟩⟩

/-- Witness of C2: the path returned from `actorA` to `actorC`. -/
theorem findShortestPath_valid_witness :
    (path.mk actorA [(film1, actorB), (film2, actorC)]).Valid demoDb ∧
    ((path.mk actorA [(film1, actorB), (film2, actorC)]) ≠ path.new [] →
      (path.mk actorA [(film1, actorB), (film2, actorC)]).startPlayer = actorA ∧
      (path.mk actorA [(film1, actorB), (film2, actorC)]).getLastPlayer = actorC) :=
  findShortestPath_valid demoDb actorA actorC 4 _ (by decide)

/-- C3. For every name `x` and every database, `findShortestPath(x, x, db)`
returns in its first iteration the path that consists of `x` alone, with zero
hops, and the run has called neither `getCredits` nor `getCast`. -/
theorem findShortestPath_self (db : Database) (x : string) (fuel : Nat) :
    findShortestPath (fuel + 1) x x db = some (path.new x) ∧
    (path.new x).getLength = 0 ∧ (path.new x).players = [x] ∧
    ∃ s, findShortestPathRun (fuel + 1) x x db = some (path.new x, s) ∧
      s.iterations = 1 ∧ s.creditsCalls = [] ∧ s.castCalls = [] := by
  simp [findShortestPath, findShortestPathRun, bfsLoop, initialState, path.getLastPlayer,
    path.getLength, path.new, path.players]

/-- C4. When `start` differs from `endPlayer` and no chain of hops leads from
`start` to `endPlayer` (the actors reachable from `start` lying in a finite set
`R`), `findShortestPath` returns `path("")`: a path without hops whose last
player is the empty string, which `main` prints as "No Path found". -/
theorem findShortestPath_no_path (db : Database) (start endPlayer : string)
    (R : Finset string) (hR : ∀ n a, Chain db start (n + 1) a → a ∈ R)
    (hne : start ≠ endPlayer) (hno : ∀ n, ¬ Chain db start (n + 1) endPlayer) :
    (∀ fuel, R.card + 1 ≤ fuel →
      findShortestPath fuel start endPlayer db = some (path.new [])) ∧
    (path.new []).getLength = 0 ∧ (path.new []).getLastPlayer = [] ∧
    printsNoPath (path.new []) = true := by
  obtain ⟨r, hrun, pending, _, hpost⟩ := run_total db start endPlayer R hR
  refine ⟨?_, rfl, rfl, rfl⟩
  rcases hpost with ⟨hp, _⟩ | ⟨hl, hs, hv, _⟩
  · intro fuel hf
    simp [findShortestPath, hrun fuel hf, hp]
  · exfalso
    have hc := chain_of_valid db r.1 hv
    rw [hs, hl] at hc
    cases hlen : r.1.getLength with
    | zero =>
      rw [hlen] at hc
      cases hc
      exact hne rfl
    | succ n =>
      rw [hlen] at hc
      exact hno n hc

/-- Witness of C4: `actorD` shares no film with `actorA`. -/
theorem findShortestPath_no_path_witness :
    actorA ≠ actorD ∧
    (∀ fuel, demoActors.card + 1 ≤ fuel →
      findShortestPath fuel actorA actorD demoDb = some (path.new [])) ∧
    (path.new []).getLength = 0 ∧ (path.new []).getLastPlayer = [] ∧
    printsNoPath (path.new []) = true :=
  ⟨by decide,
    findShortestPath_no_path demoDb actorA actorD demoActors demo_reach (by decide)
      demo_no_chain⟩

/-- C5. Termination.  When the actors that a chain of one or more hops reaches
from `start` lie in a finite set `R`, `findShortestPath` returns for every
`endPlayer`, cycles or not, within `R.card + 1` iterations of its loop; no two
paths that were pushed on the queue end in the same actor, and `getCast` was
called at most once for each film. -/
theorem findShortestPath_terminates (db : Database) (start endPlayer : string)
    (R : Finset string) (hR : ∀ n a, Chain db start (n + 1) a → a ∈ R) :
    ∃ p s, (∀ fuel, R.card + 1 ≤ fuel →
        findShortestPathRun fuel start endPlayer db = some (p, s)) ∧
      s.iterations ≤ R.card + 1 ∧
      (s.enqueued.map path.getLastPlayer).Nodup ∧ s.castCalls.Nodup := by
  obtain ⟨r, hrun, pending, hinv, _⟩ := run_total db start endPlayer R hR
  refine ⟨r.1, r.2, hrun, ?_, ?_, ?_⟩
  · have := iterations_le R hR hinv
    omega
  · rw [hinv.enqueued_last]; exact hinv.seen_nodup
  · rw [hinv.cast_calls]; exact hinv.films_nodup

/-- Witness of C5 on the small database, whose graph has the cycle
`actorA - film1 - actorB - film1 - actorA`. -/
theorem findShortestPath_terminates_witness :
    ∃ p s, (∀ fuel, demoActors.card + 1 ≤ fuel →
        findShortestPathRun fuel actorA actorD demoDb = some (p, s)) ∧
      s.iterations ≤ demoActors.card + 1 ∧
      (s.enqueued.map path.getLastPlayer).Nodup ∧ s.castCalls.Nodup :=
  findShortestPath_terminates demoDb actorA actorD demoActors demo_reach

/-! ## The order of strings -/

theorem strLt_irrefl : ∀ a : string, strLt a a = false
  | [] => rfl
  | a :: as => by simp [strLt, strLt_irrefl as]

theorem strLt_total : ∀ a b : string, strLt a b = false → strLt b a = false → a = b
  | [], [], _, _ => rfl
  | [], _ :: _, h, _ => by simp [strLt] at h
  | _ :: _, [], _, h => by simp [strLt] at h
  | a :: as, b :: bs, h1, h2 => by
    simp only [strLt] at h1 h2
    split_ifs at h1 h2 with c1 c2
    have e : a = b := Fin.ext (by omega)
    rw [e, strLt_total as bs h1 h2]

theorem strLt_trans : ∀ a b c : string, strLt a b = true → strLt b c = true →
    strLt a c = true
  | [], [], _, h, _ => by simp [strLt] at h
  | [], _ :: _, [], _, h => by simp [strLt] at h
  | [], _ :: _, _ :: _, _, _ => rfl
  | _ :: _, [], _, h, _ => by simp [strLt] at h
  | _ :: _, _ :: _, [], _, h => by simp [strLt] at h
  | a :: as, b :: bs, c :: cs, h1, h2 => by
    simp only [strLt] at h1 h2 ⊢
    split_ifs at h1 h2 ⊢ <;> first
      | rfl
      | omega
      | exact strLt_trans as bs cs h1 h2

theorem strLt_of_le_of_lt (a b c : string) (h1 : strLt b a = false)
    (h2 : strLt b c = true) : strLt a c = true := by
  cases h : strLt a b with
  | true => exact strLt_trans a b c h h2
  | false => rw [strLt_total a b h h1]; exact h2

/-! ## Binary search -/

theorem lowerBoundLoop_spec (comp : Nat → Option Bool) (n : Nat)
    (hdef : ∀ i, i < n → ∃ b, comp i = some b)
    (hpart : ∀ i j, i < j → j < n → comp j = some true → comp i = some true) :
    ∀ (fuel first len : Nat), len ≤ fuel → first + len ≤ n →
      (∀ i, i < first → comp i = some true) →
      (∀ i, first + len ≤ i → i < n → comp i = some false) →
      ∃ k, lowerBoundLoop comp fuel first len = some k ∧ k ≤ n ∧
        (∀ i, i < k → comp i = some true) ∧ (∀ i, k ≤ i → i < n → comp i = some false)
  | 0, first, len, hf, hn, hlo, hhi => by
    have : len = 0 := by omega
    subst this
    exact ⟨first, rfl, by omega, hlo, fun i hi => hhi i (by omega)⟩
  | fuel + 1, first, len, hf, hn, hlo, hhi => by
    by_cases hl : len = 0
    · subst hl
      exact ⟨first, by simp [lowerBoundLoop], by omega, hlo, fun i hi => hhi i (by omega)⟩
    · have hhalf : len / 2 < len := Nat.div_lt_self (Nat.pos_of_ne_zero hl) (by decide)
      obtain ⟨b, hb⟩ := hdef (first + len / 2) (by omega)
      cases b with
      | true =>
        have e : lowerBoundLoop comp (fuel + 1) first len =
            lowerBoundLoop comp fuel (first + len / 2 + 1) (len - len / 2 - 1) := by
          simp [lowerBoundLoop, hl, hb]
        rw [e]
        refine lowerBoundLoop_spec comp n hdef hpart fuel _ _ (by omega) (by omega) ?_ ?_
        · intro i hi
          rcases Nat.lt_or_ge i (first + len / 2) with h | h
          · exact hpart i (first + len / 2) h (by omega) hb
          · have : i = first + len / 2 := by omega
            rw [this]; exact hb
        · intro i hi hin
          exact hhi i (by omega) hin
      | false =>
        have e : lowerBoundLoop comp (fuel + 1) first len =
            lowerBoundLoop comp fuel first (len / 2) := by
          simp [lowerBoundLoop, hl, hb]
        rw [e]
        refine lowerBoundLoop_spec comp n hdef hpart fuel _ _ (by omega) (by omega) hlo ?_
        intro i hi hin
        obtain ⟨c, hc⟩ := hdef i hin
        cases c with
        | false => exact hc
        | true =>
          rcases Nat.lt_or_ge (first + len / 2) i with h | h
          · have := hpart (first + len / 2) i h hin hc
            rw [hb] at this; cases this
          · have : i = first + len / 2 := by omega
            rw [this] at hc
            rw [hb] at hc; cases hc

theorem lowerBound_spec (comp : Nat → Option Bool) (n : Nat)
    (hdef : ∀ i, i < n → ∃ b, comp i = some b)
    (hpart : ∀ i j, i < j → j < n → comp j = some true → comp i = some true) :
    ∃ k, lowerBound comp n = some k ∧ k ≤ n ∧
      (∀ i, i < k → comp i = some true) ∧ (∀ i, k ≤ i → i < n → comp i = some false) :=
  lowerBoundLoop_spec comp n hdef hpart n 0 n le_rfl (by omega)
    (fun i hi => absurd hi (Nat.not_lt_zero i)) (fun i hi hin => by omega)

/-! ## `getCredits` finds exact matches only -/

theorem actorBuffer_name {db : imdb} {N : Nat} (h : ActorBuffer db N) (i : Nat) (hi : i < N) :
    ∃ name, actorNameAt db i = some name := by
  obtain ⟨offset, name, _, ho, hn, _⟩ := h.entry i hi
  exact ⟨name, by simp [actorNameAt, ho, hn]⟩

theorem actorLowerBound_spec {db : imdb} {N : Nat} (h : ActorBuffer db N) (player : string) :
    ∃ k, actorLowerBound db player = some ((N : Int), k) ∧ k ≤ N ∧
      (∀ i, i < k → ∃ name, actorNameAt db i = some name ∧ strLt name player = true) ∧
      (∀ i, k ≤ i → i < N → ∃ name, actorNameAt db i = some name ∧ strLt name player = false) := by
  have hdef : ∀ i, i < N →
      ∃ b, (fun i => (actorNameAt db i).map fun name => strLt name player) i = some b := by
    intro i hi
    obtain ⟨name, hn⟩ := actorBuffer_name h i hi
    exact ⟨strLt name player, by simp [hn]⟩
  have hpart : ∀ i j, i < j → j < N →
      (fun i => (actorNameAt db i).map fun name => strLt name player) j = some true →
      (fun i => (actorNameAt db i).map fun name => strLt name player) i = some true := by
    intro i j hij hj hc
    obtain ⟨ni, hni⟩ := actorBuffer_name h i (by omega)
    obtain ⟨nj, hnj⟩ := actorBuffer_name h j hj
    simp only [hnj, Option.map_some', Option.some.injEq] at hc
    simp only [hni, Option.map_some', Option.some.injEq]
    exact strLt_of_le_of_lt ni nj player (h.sorted i j ni nj hij hj hni hnj) hc
  obtain ⟨k, hk, hkn, hlo, hhi⟩ := lowerBound_spec _ N hdef hpart
  refine ⟨k, by simp [actorLowerBound, h.count, hk], hkn, ?_, ?_⟩
  · intro i hi
    obtain ⟨name, hn⟩ := actorBuffer_name h i (by omega)
    have := hlo i hi
    simp only [hn, Option.map_some', Option.some.injEq] at this
    exact ⟨name, hn, this⟩
  · intro i hi hin
    obtain ⟨name, hn⟩ := actorBuffer_name h i hin
    have := hhi i hi hin
    simp only [hn, Option.map_some', Option.some.injEq] at this
    exact ⟨name, hn, this⟩

/-- C6. `getCredits` returns exact matches only.  On an actor buffer of `N`
records whose table is sorted, `getCredits(player, films)` returns, and it
returns `true` exactly when some entry of the table points to a record whose
name equals `player`; for every other name (between two entries, before the
first, after the last, or with `N = 0`) it returns `false`. -/
theorem getCredits_exact (db : imdb) (N : Nat) (h : ActorBuffer db N) (player : string)
    (films : List film) :
    ∃ flag out, getCredits db player films = some (flag, out) ∧
      (flag = true ↔ ∃ i, i < N ∧ actorNameAt db i = some player) := by
  obtain ⟨k, hk, hkn, hlo, hhi⟩ := actorLowerBound_spec h player
  have hbelow : ∀ i, i < k → actorNameAt db i ≠ some player := by
    intro i hi he
    obtain ⟨name, hn, hlt⟩ := hlo i hi
    rw [he] at hn
    cases hn
    rw [strLt_irrefl] at hlt
    cases hlt
  rcases Nat.lt_or_ge k N with hlt | hge
  · obtain ⟨offset, name, credits, ho, hn, hc⟩ := h.entry k hlt
    have hname : actorNameAt db k = some name := by simp [actorNameAt, ho, hn]
    have hkN : ¬ ((k : Int) = (N : Int)) := by omega
    by_cases heq : name = player
    · subst heq
      refine ⟨true, credits, ?_, ?_⟩
      · simp [getCredits, hk, hkN, ho, hn, hc]
      · exact ⟨fun _ => ⟨k, hlt, hname⟩, fun _ => rfl⟩
    · refine ⟨false, films, ?_, ?_⟩
      · simp [getCredits, hk, hkN, ho, hn, heq]
      · constructor
        · intro hf; cases hf
        · rintro ⟨m, hm, hmn⟩
          exfalso
          rcases Nat.lt_or_ge m k with hmk | hmk
          · exact hbelow m hmk hmn
          · obtain ⟨name', hn', hge'⟩ := hhi k le_rfl hlt
            rw [hname] at hn'
            cases hn'
            rcases Nat.eq_or_lt_of_le hmk with e | hkm
            · subst e
              rw [hname] at hmn
              cases hmn
              exact heq rfl
            · have := h.sorted k m name player hkm hm hname hmn
              exact heq (strLt_total name player hge' this)
  · have hkN : (k : Int) = (N : Int) := by omega
    refine ⟨false, films, ?_, ?_⟩
    · simp [getCredits, hk, hkN]
    · constructor
      · intro hf; cases hf
      · rintro ⟨m, hm, hmn⟩
        exact absurd hmn (hbelow m (by omega))

theorem demo_actorBuffer : ActorBuffer demoImdb 2 where
  count := by decide
  entry := by
    intro i hi
    match i, hi with
    | 0, _ => exact ⟨12, [65], [⟨[49], 1990⟩], by decide, by decide, by decide⟩
    | 1, _ => exact ⟨20, [67], [], by decide, by decide, by decide⟩
  sorted := by
    intro i j name name' hij hj hi' hj'
    have hi0 : i = 0 := by omega
    have hj1 : j = 1 := by omega
    subst hi0 hj1
    have e0 : actorNameAt demoImdb 0 = some [65] := by decide
    have e1 : actorNameAt demoImdb 1 = some [67] := by decide
    rw [e0] at hi'
    rw [e1] at hj'
    cases hi'
    cases hj'
    decide

/-- Witness of C6: the name `B` would sort between the two entries `A` and `C`
of the small actor file. -/
theorem getCredits_exact_witness :
    ActorBuffer demoImdb 2 ∧
    ∃ flag out, getCredits demoImdb [66] [] = some (flag, out) ∧
      (flag = true ↔ ∃ i, i < 2 ∧ actorNameAt demoImdb i = some [66]) :=
  ⟨demo_actorBuffer, getCredits_exact demoImdb 2 demo_actorBuffer [66] []⟩

/-! ## `getCast` reads the table entry before it tests the position -/

/-- C7. At the failing input: the film file holds the single film `1` of 1990,
and the query is the film `1` of 1991, whose title matches and whose year does
not.  No entry equals the query, yet `getCast` does not return `false`: the
query sorts after the last entry, line 117 reads the four bytes that follow the
table as an offset and decodes a film there, outside of the file.  A query that
sorts before the entry is answered with `false`. -/
theorem getCast_after_last_entry :
    filmAt demoImdb 0 = some ⟨[49], 1990⟩ ∧
    getCast demoImdb ⟨[49], 1991⟩ [] = none ∧
    getCast demoImdb ⟨[49], 1989⟩ [] = some (false, []) := by
  decide

/-- C8. At the failing input: on the film file with `N = 1` entries and a query
that sorts after the entry, `lower_bound` returns position `1 = N`, and
`getCast` reads the table at index `1`: the bytes found there, which belong to
the first record, give the offset 5898289, which is not the entry of the table;
the film decoded at that offset lies outside of the file, so that the call does
not report not-found.  The same happens with `N = 0` on a file of four bytes. -/
theorem getCast_reads_past_table :
    filmLowerBound demoImdb ⟨[50], 1995⟩ = some (1, 1) ∧
    readInt demoMovieFile (4 + 4 * 0) = some 8 ∧
    readInt demoMovieFile (4 + 4 * 1) = some 5898289 ∧
    buildFilm demoMovieFile 5898289 = none ∧
    getCast demoImdb ⟨[50], 1995⟩ [] = none ∧
    getCast ⟨[], [0, 0, 0, 0]⟩ ⟨[50], 1995⟩ [] = none := by
  decide

/-! ## `getCast` on a query that does not sort after every entry -/

theorem film_lt_irrefl (a : film) : a.lt a = false := by
  simp [film.lt, strLt_irrefl]

theorem film_lt_total (a b : film) (h1 : a.lt b = false) (h2 : b.lt a = false) : a = b := by
  obtain ⟨at_, ay⟩ := a
  obtain ⟨bt, by_⟩ := b
  simp only [film.lt, Bool.or_eq_false_iff, Bool.and_eq_false_imp, decide_eq_true_eq,
    decide_eq_false_iff_not] at h1 h2
  have ht : at_ = bt := strLt_total at_ bt h1.1 h2.1
  subst ht
  have hy : ay = by_ := by
    have := h1.2 rfl
    have := h2.2 rfl
    omega
  rw [hy]

theorem film_lt_of_le_of_lt (a b c : film) (h1 : b.lt a = false) (h2 : b.lt c = true) :
    a.lt c = true := by
  obtain ⟨at_, ay⟩ := a
  obtain ⟨bt, by_⟩ := b
  obtain ⟨ct, cy⟩ := c
  simp only [film.lt, Bool.or_eq_false_iff, Bool.and_eq_false_imp, decide_eq_true_eq,
    decide_eq_false_iff_not, Bool.or_eq_true, Bool.and_eq_true] at h1 h2 ⊢
  cases hab : strLt at_ bt with
  | true =>
    rcases h2 with h2 | ⟨h2, _⟩
    · exact Or.inl (strLt_trans at_ bt ct hab h2)
    · subst h2; exact Or.inl hab
  | false =>
    have ht : at_ = bt := strLt_total at_ bt hab h1.1
    subst ht
    rcases h2 with h2 | ⟨h2, h3⟩
    · exact Or.inl h2
    · have := h1.2 rfl
      exact Or.inr ⟨h2, by omega⟩

theorem film_eq_iff (a b : film) : a.eq b = true ↔ a = b := by
  obtain ⟨at_, ay⟩ := a
  obtain ⟨bt, by_⟩ := b
  simp [film.eq]

theorem filmBuffer_film {db : imdb} {N : Nat} (h : FilmBuffer db N) (i : Nat) (hi : i < N) :
    ∃ f, filmAt db i = some f := by
  obtain ⟨offset, f, _, ho, hf, _⟩ := h.entry i hi
  exact ⟨f, by simp [filmAt, ho, hf]⟩

theorem filmLowerBound_spec {db : imdb} {N : Nat} (h : FilmBuffer db N) (movie : film) :
    ∃ k, filmLowerBound db movie = some ((N : Int), k) ∧ k ≤ N ∧
      (∀ i, i < k → ∃ f, filmAt db i = some f ∧ f.lt movie = true) ∧
      (∀ i, k ≤ i → i < N → ∃ f, filmAt db i = some f ∧ f.lt movie = false) := by
  have hdef : ∀ i, i < N →
      ∃ b, (fun i => (filmAt db i).map fun f => f.lt movie) i = some b := by
    intro i hi
    obtain ⟨f, hf⟩ := filmBuffer_film h i hi
    exact ⟨f.lt movie, by simp [hf]⟩
  have hpart : ∀ i j, i < j → j < N →
      (fun i => (filmAt db i).map fun f => f.lt movie) j = some true →
      (fun i => (filmAt db i).map fun f => f.lt movie) i = some true := by
    intro i j hij hj hc
    obtain ⟨fi, hfi⟩ := filmBuffer_film h i (by omega)
    obtain ⟨fj, hfj⟩ := filmBuffer_film h j hj
    simp only [hfj, Option.map_some', Option.some.injEq] at hc
    simp only [hfi, Option.map_some', Option.some.injEq]
    exact film_lt_of_le_of_lt fi fj movie (h.sorted i j fi fj hij hj hfi hfj) hc
  obtain ⟨k, hk, hkn, hlo, hhi⟩ := lowerBound_spec _ N hdef hpart
  refine ⟨k, by simp [filmLowerBound, h.count, hk], hkn, ?_, ?_⟩
  · intro i hi
    obtain ⟨f, hf⟩ := filmBuffer_film h i (by omega)
    have := hlo i hi
    simp only [hf, Option.map_some', Option.some.injEq] at this
    exact ⟨f, hf, this⟩
  · intro i hi hin
    obtain ⟨f, hf⟩ := filmBuffer_film h i hin
    have := hhi i hi hin
    simp only [hf, Option.map_some', Option.some.injEq] at this
    exact ⟨f, hf, this⟩

/-- On a sorted film buffer, a query that some entry does not sort below is
answered by exact match: `getCast` returns, and it returns `true` exactly when
some entry decodes to the query. -/
theorem getCast_exact_inside (db : imdb) (N : Nat) (h : FilmBuffer db N) (movie : film)
    (players : List string)
    (hin : ∃ i, i < N ∧ ∃ f, filmAt db i = some f ∧ f.lt movie = false) :
    ∃ flag out, getCast db movie players = some (flag, out) ∧
      (flag = true ↔ ∃ i, i < N ∧ filmAt db i = some movie) := by
  obtain ⟨k, hk, hkn, hlo, hhi⟩ := filmLowerBound_spec h movie
  have hbelow : ∀ i, i < k → ∀ f, filmAt db i = some f → f.lt movie = true := by
    intro i hi f hf
    obtain ⟨g, hg, hlt⟩ := hlo i hi
    rw [hf] at hg
    cases hg
    exact hlt
  have hlt : k < N := by
    obtain ⟨i, hi, f, hf, hfl⟩ := hin
    rcases Nat.lt_or_ge i k with hik | hik
    · rw [hbelow i hik f hf] at hfl; cases hfl
    · omega
  obtain ⟨offset, found, cast, ho, hb, hc⟩ := h.entry k hlt
  have hfound : filmAt db k = some found := by simp [filmAt, ho, hb]
  have hkN : ¬ ((k : Int) = (N : Int)) := by omega
  by_cases heq : found = movie
  · subst heq
    refine ⟨true, cast, ?_, ?_⟩
    · have he : found.eq found = true := (film_eq_iff found found).2 rfl
      simp [getCast, hk, hkN, ho, hb, hc, he]
    · exact ⟨fun _ => ⟨k, hlt, hfound⟩, fun _ => rfl⟩
  · refine ⟨false, players, ?_, ?_⟩
    · have he : found.eq movie = false := by
        cases hfe : found.eq movie with
        | false => rfl
        | true => exact absurd ((film_eq_iff found movie).1 hfe) heq
      simp [getCast, hk, ho, hb, he]
    · constructor
      · intro hf; cases hf
      · rintro ⟨m, hm, hmf⟩
        exfalso
        rcases Nat.lt_or_ge m k with hmk | hmk
        · have := hbelow m hmk movie hmf
          rw [film_lt_irrefl] at this
          cases this
        · obtain ⟨g, hg, hge⟩ := hhi k le_rfl hlt
          rw [hfound] at hg
          cases hg
          rcases Nat.eq_or_lt_of_le hmk with e | hkm
          · subst e
            rw [hfound] at hmf
            cases hmf
            exact heq rfl
          · have := h.sorted k m found movie hkm hm hfound hmf
            exact heq (film_lt_total found movie hge this)

theorem demo_filmBuffer : FilmBuffer demoImdb 1 where
  count := by decide
  entry := by
    intro i hi
    have hi0 : i = 0 := by omega
    subst hi0
    exact ⟨8, ⟨[49], 1990⟩, [[65]], by decide, by decide, by decide⟩
  sorted := by
    intro i j f f' hij hj _ _
    omega

theorem getCast_exact_inside_demo :
    ∃ flag out, getCast demoImdb ⟨[49], 1989⟩ [] = some (flag, out) ∧
      (flag = true ↔ ∃ i, i < 1 ∧ filmAt demoImdb i = some ⟨[49], 1989⟩) :=
  getCast_exact_inside demoImdb 1 demo_filmBuffer ⟨[49], 1989⟩ []
    ⟨0, by decide, ⟨[49], 1990⟩, by decide, by decide⟩

/-! ## `buildFilm` -/

theorem scanString_spec : ∀ (l : List Byte) (k : Nat), l[k]? = some 0 →
    (∀ j, j < k → l[j]? ≠ some 0) → scanString l = some (l.take k)
  | [], k, h, _ => by simp at h
  | b :: rest, 0, h, _ => by
    simp only [List.getElem?_cons_zero, Option.some.injEq] at h
    simp [scanString, h]
  | b :: rest, k + 1, h, hf => by
    have hb : b ≠ 0 := by
      have := hf 0 (Nat.succ_pos k)
      simpa using this
    have ih := scanString_spec rest k (by simpa using h)
      (fun j hj => by simpa using hf (j + 1) (Nat.succ_lt_succ hj))
    simp [scanString, hb, ih]

theorem unsigned_of_char (b : Byte) : toSigned 8 b.val % 256 = (b.val : Int) := by
  have hb := b.isLt
  unfold toSigned
  split_ifs <;> norm_num <;> omega

/-- C9. `buildFilm` decodes a film record exactly.  Let the first zero byte at or
after `offset` be at position `z`.  Then the result of `buildFilm` is determined
by the byte that follows position `z`: the title is the bytes from `offset` up
to position `z`, and the year is 1900 plus that byte as an unsigned value (a
year byte of 128 or more is not taken as negative); every film that `buildFilm`
returns here has this title and a year from 1900 to 2155. -/
theorem buildFilm_decodes (movieData : List Byte) (offset z : Nat) (hz : offset ≤ z)
    (hzero : movieData[z]? = some 0)
    (hfirst : ∀ j, offset ≤ j → j < z → movieData[j]? ≠ some 0) :
    buildFilm movieData (offset : Int) =
      (movieData[z + 1]?).map
        (fun b => ⟨(movieData.drop offset).take (z - offset), 1900 + (b.val : Int)⟩) ∧
    ∀ f, buildFilm movieData (offset : Int) = some f →
      f.title = (movieData.drop offset).take (z - offset) ∧ 1900 ≤ f.year ∧ f.year ≤ 2155 := by
  have hzl : z < movieData.length := by
    rcases Nat.lt_or_ge z movieData.length with h | h
    · exact h
    · rw [List.getElem?_eq_none h] at hzero; cases hzero
  have hs : readString movieData (offset : Int) =
      some ((movieData.drop offset).take (z - offset)) := by
    have hneg : ¬ ((offset : Int) < 0) := by omega
    simp only [readString, hneg, if_false, Int.toNat_ofNat]
    apply scanString_spec
    · rw [List.getElem?_drop]
      have : offset + (z - offset) = z := by omega
      rw [this]; exact hzero
    · intro j hj
      rw [List.getElem?_drop]
      exact hfirst (offset + j) (by omega) (by omega)
  have hlen : ((movieData.drop offset).take (z - offset)).length = z - offset := by
    rw [List.length_take, List.length_drop]
    omega
  have hc : readChar movieData ((offset : Int) + (z - offset : Nat) + 1) =
      (movieData[z + 1]?).map fun b => toSigned 8 b.val := by
    have e : (offset : Int) + (z - offset : Nat) + 1 = ((z + 1 : Nat) : Int) := by omega
    have hneg : ¬ (((z + 1 : Nat) : Int) < 0) := by omega
    rw [e]
    simp only [readChar, readByte, hneg, if_false, Int.toNat_ofNat]
  have hb : buildFilm movieData (offset : Int) =
      (movieData[z + 1]?).map
        (fun b => ⟨(movieData.drop offset).take (z - offset), 1900 + (b.val : Int)⟩) := by
    simp only [buildFilm, hs, Option.some_bind, hlen, hc, Option.map_map]
    congr 1
    funext b
    simp [Function.comp, unsigned_of_char]
  refine ⟨hb, ?_⟩
  intro f hf
  rw [hb] at hf
  simp only [Option.map_eq_some'] at hf
  obtain ⟨b, _, rfl⟩ := hf
  have := b.isLt
  exact ⟨rfl, by show (1900 : Int) ≤ 1900 + (b.val : Int); omega,
    by show 1900 + (b.val : Int) ≤ 2155; omega⟩

/-- Witness of C9: the record `1`, zero byte, year byte 200 decodes to the film
`1` of 2100. -/
theorem buildFilm_decodes_witness :
    buildFilm demoRecord ((0 : Nat) : Int) = some ⟨[49], 2100⟩ ∧
    ∀ f, buildFilm demoRecord ((0 : Nat) : Int) = some f →
      f.title = (demoRecord.drop 0).take (1 - 0) ∧ 1900 ≤ f.year ∧ f.year ≤ 2155 :=
  ⟨(buildFilm_decodes demoRecord 0 1 (by decide) (by decide)
      (by intro j _ h2; interval_cases j; decide)).1.trans (by decide),
    (buildFilm_decodes demoRecord 0 1 (by decide) (by decide)
      (by intro j _ h2; interval_cases j; decide)).2⟩

/-! ## The padding of the records -/

/-- C10. The padding arithmetic matches the record layout for every key length
`L`.  `getCredits` reads the count of an actor record at the least even offset
that is at least `L + 1`, and the list of film offsets at the least multiple of
four that is at least two more; `getCast` reads the count of a film record at
the least even offset that is at least `L + 2`, and the list of actor offsets at
the least multiple of four that is at least two more.  In both records the list
starts at most two bytes after the end of the count. -/
theorem padding_layout (L : Nat) :
    IsLeast {e | e % 2 = 0 ∧ L + 1 ≤ e} (actorCountOffset L) ∧
    IsLeast {m | m % 4 = 0 ∧ actorCountOffset L + 2 ≤ m} (listOffset (actorCountOffset L)) ∧
    listOffset (actorCountOffset L) ≤ actorCountOffset L + 2 + 2 ∧
    IsLeast {e | e % 2 = 0 ∧ L + 2 ≤ e} (filmCountOffset L) ∧
    IsLeast {m | m % 4 = 0 ∧ filmCountOffset L + 2 ≤ m} (listOffset (filmCountOffset L)) ∧
    listOffset (filmCountOffset L) ≤ filmCountOffset L + 2 + 2 ∧
    (∀ (db : imdb) (offset : Int) (name : string),
      readString db.actorFile offset = some name → name.length = L →
      readCredits db offset =
        (readShort db.actorFile (offset + actorCountOffset L)).bind fun numMovies =>
          collectFrom
            (fun i =>
              (readInt db.actorFile (offset + listOffset (actorCountOffset L) + 4 * i)).bind
                fun movieOffset => buildFilm db.movieFile movieOffset)
            0 numMovies.toNat) ∧
    (∀ (db : imdb) (offset : Int) (foundFilm : film), foundFilm.title.length = L →
      readCast db offset foundFilm =
        (readShort db.movieFile (offset + filmCountOffset L)).bind fun castSize =>
          collectFrom
            (fun i =>
              (readInt db.movieFile (offset + listOffset (filmCountOffset L) + 4 * i)).bind
                fun actorOffset => readString db.actorFile actorOffset)
            0 castSize.toNat) := by
  refine ⟨?_, ?_, ?_, ?_, ?_, ?_, ?_, ?_⟩
  · unfold actorCountOffset
    constructor
    · show _ ∧ _
      split_ifs <;> omega
    · rintro e ⟨he, hl⟩
      show _ ≤ e
      split_ifs <;> omega
  · unfold listOffset actorCountOffset
    constructor
    · show _ ∧ _
      split_ifs <;> omega
    · rintro m ⟨hm, hl⟩
      revert hl
      show _ ≤ m → _ ≤ m
      split_ifs <;> omega
  · unfold listOffset
    split_ifs <;> omega
  · unfold filmCountOffset
    constructor
    · show _ ∧ _
      split_ifs <;> omega
    · rintro e ⟨he, hl⟩
      show _ ≤ e
      split_ifs <;> omega
  · unfold listOffset filmCountOffset
    constructor
    · show _ ∧ _
      split_ifs <;> omega
    · rintro m ⟨hm, hl⟩
      revert hl
      show _ ≤ m → _ ≤ m
      split_ifs <;> omega
  · unfold listOffset
    split_ifs <;> omega
  · intro db offset name hn hl
    subst hl
    simp [readCredits, hn]
  · intro db offset foundFilm hl
    subst hl
    rfl

/-! ## The states of the search only grow -/

theorem extends_refl (s : SearchState) : Extends s s :=
  ⟨fun _ h => h, fun _ h => h, fun _ h => h⟩

theorem extends_trans {s s' s'' : SearchState} (h : Extends s s') (h' : Extends s' s'') :
    Extends s s'' :=
  ⟨fun a ha => h'.players a (h.players a ha), fun f hf => h'.films f (h.films f hf),
    fun p hp => h'.enqueued p (h.enqueued p hp)⟩

theorem visitCostar_extends (cur : path) (credit : film) (s : SearchState) (costar : string) :
    Extends s (visitCostar cur credit s costar) := by
  by_cases hs : costar ∈ s.seenPlayers
  · rw [visitCostar_seen hs]; exact extends_refl s
  · rw [visitCostar_unseen hs]
    exact ⟨fun a ha => List.mem_cons_of_mem _ ha, fun _ h => h,
      fun p hp => List.mem_cons_of_mem _ hp⟩

theorem castLoop_extends (cur : path) (credit : film) :
    ∀ (cast : List string) (s : SearchState),
      Extends s (cast.foldl (visitCostar cur credit) s)
  | [], s => extends_refl s
  | c :: rest, s =>
    extends_trans (visitCostar_extends cur credit s c)
      (castLoop_extends cur credit rest (visitCostar cur credit s c))

theorem visitCredit_extends (db : Database) (cur : path) (s : SearchState) (credit : film) :
    Extends s (visitCredit db cur s credit) := by
  unfold visitCredit
  split_ifs with hs
  · exact extends_refl s
  · have h1 : Extends s { s with
        seenFilms := setInsert credit s.seenFilms
        castCalls := credit :: s.castCalls } :=
      ⟨fun _ h => h, fun f hf => by simp [setInsert, hs, hf], fun _ h => h⟩
    cases db.getCast credit with
    | none => exact h1
    | some cast => exact extends_trans h1 (castLoop_extends cur credit cast _)

theorem creditLoop_extends (db : Database) (cur : path) :
    ∀ (credits : List film) (s : SearchState),
      Extends s (credits.foldl (visitCredit db cur) s)
  | [], s => extends_refl s
  | c :: rest, s =>
    extends_trans (visitCredit_extends db cur s c)
      (creditLoop_extends db cur rest (visitCredit db cur s c))

theorem expand_extends (db : Database) (cur : path) (s : SearchState) :
    Extends s (expand db cur s) := by
  unfold expand
  have h1 : Extends s { s with creditsCalls := cur.getLastPlayer :: s.creditsCalls } :=
    ⟨fun _ h => h, fun _ h => h, fun _ h => h⟩
  cases db.getCredits cur.getLastPlayer with
  | none => exact h1
  | some credits => exact extends_trans h1 (creditLoop_extends db cur credits _)

theorem bfsLoop_extends (db : Database) (endPlayer : string) :
    ∀ (fuel : Nat) (s : SearchState) (r : path × SearchState),
      bfsLoop db endPlayer fuel s = some r → Extends s r.2
  | 0, s, r, hr => by
    cases hq : s.queue with
    | nil =>
      simp only [bfsLoop, hq, Option.some.injEq] at hr
      subst hr
      exact extends_refl s
    | cons cur rest => simp [bfsLoop, hq] at hr
  | fuel + 1, s, r, hr => by
    cases hq : s.queue with
    | nil =>
      simp only [bfsLoop, hq, Option.some.injEq] at hr
      subst hr
      exact extends_refl s
    | cons cur rest =>
      have h1 : Extends s { s with queue := rest, iterations := s.iterations + 1 } :=
        ⟨fun _ h => h, fun _ h => h, fun _ h => h⟩
      by_cases he : cur.getLastPlayer = endPlayer
      · simp only [bfsLoop, hq, he, if_true, Option.some.injEq] at hr
        subst hr
        exact h1
      · simp only [bfsLoop, hq, he, if_false] at hr
        exact extends_trans h1
          (extends_trans (expand_extends db cur _) (bfsLoop_extends db endPlayer fuel _ r hr))

/-! ## Simple paths -/

theorem players_addConnection (p : path) (f : film) (b : string) :
    (p.addConnection f b).players = p.players ++ [b] := by
  simp [path.addConnection, path.players]

theorem films_addConnection (p : path) (f : film) (b : string) :
    (p.addConnection f b).films = p.films ++ [f] := by
  simp [path.addConnection, path.films]

theorem simple_initial (start : string) : Simple (initialState start) where
  queue_enqueued := by simp [initialState]
  players_nodup := by simp [initialState, path.players, path.new]
  films_nodup := by simp [initialState, path.films, path.new]
  players_seen := by simp [initialState, path.players, path.new, setInsert]
  films_seen := by simp [initialState, path.films, path.new]

theorem visitCostar_simple {cur : path} {credit : film} {s : SearchState} (costar : string)
    (h : Simple s) (hcur : cur ∈ s.enqueued) (hnew : credit ∉ cur.films)
    (hseen : credit ∈ s.seenFilms) : Simple (visitCostar cur credit s costar) := by
  by_cases hs : costar ∈ s.seenPlayers
  · rw [visitCostar_seen hs]; exact h
  · rw [visitCostar_unseen hs]
    constructor
    · intro p hp
      show p ∈ _ :: s.enqueued
      rcases List.mem_append.1 hp with hp | hp
      · exact List.mem_cons_of_mem _ (h.queue_enqueued p hp)
      · rw [List.mem_singleton.1 hp]; exact List.mem_cons_self _ _
    · intro p hp
      rcases List.mem_cons.1 hp with rfl | hp
      · rw [players_addConnection]
        refine List.Nodup.append (h.players_nodup cur hcur) (List.nodup_singleton _) ?_
        intro a ha hb
        rw [List.mem_singleton.1 hb] at ha
        exact hs (h.players_seen cur hcur _ ha)
      · exact h.players_nodup p hp
    · intro p hp
      rcases List.mem_cons.1 hp with rfl | hp
      · rw [films_addConnection]
        refine List.Nodup.append (h.films_nodup cur hcur) (List.nodup_singleton _) ?_
        intro f hf hb
        rw [List.mem_singleton.1 hb] at hf
        exact hnew hf
      · exact h.films_nodup p hp
    · intro p hp a ha
      show a ∈ costar :: s.seenPlayers
      rcases List.mem_cons.1 hp with rfl | hp
      · rw [players_addConnection] at ha
        rcases List.mem_append.1 ha with ha | ha
        · exact List.mem_cons_of_mem _ (h.players_seen cur hcur a ha)
        · rw [List.mem_singleton.1 ha]; exact List.mem_cons_self _ _
      · exact List.mem_cons_of_mem _ (h.players_seen p hp a ha)
    · intro p hp f hf
      show f ∈ s.seenFilms
      rcases List.mem_cons.1 hp with rfl | hp
      · rw [films_addConnection] at hf
        rcases List.mem_append.1 hf with hf | hf
        · exact h.films_seen cur hcur f hf
        · rw [List.mem_singleton.1 hf]; exact hseen
      · exact h.films_seen p hp f hf

theorem castLoop_simple {cur : path} {credit : film} (hnew : credit ∉ cur.films) :
    ∀ (cast : List string) (s : SearchState), Simple s → cur ∈ s.enqueued →
      credit ∈ s.seenFilms → Simple (cast.foldl (visitCostar cur credit) s)
  | [], _, h, _, _ => h
  | c :: rest, s, h, hcur, hseen =>
    castLoop_simple hnew rest (visitCostar cur credit s c)
      (visitCostar_simple c h hcur hnew hseen)
      ((visitCostar_extends cur credit s c).enqueued cur hcur)
      ((visitCostar_extends cur credit s c).films credit hseen)

theorem visitCredit_simple (db : Database) {cur : path} {s : SearchState} (credit : film)
    (h : Simple s) (hcur : cur ∈ s.enqueued) : Simple (visitCredit db cur s credit) := by
  unfold visitCredit
  split_ifs with hs
  · exact h
  · have hnew : credit ∉ cur.films := fun hf => hs (h.films_seen cur hcur credit hf)
    have h1 : Simple { s with
        seenFilms := setInsert credit s.seenFilms
        castCalls := credit :: s.castCalls } :=
      { h with
        films_seen := fun p hp f hf => by
          have := h.films_seen p hp f hf
          simp [setInsert, hs, this] }
    cases db.getCast credit with
    | none => exact h1
    | some cast =>
      exact castLoop_simple hnew cast _ h1 hcur (by simp [setInsert, hs])

theorem creditLoop_simple (db : Database) {cur : path} :
    ∀ (credits : List film) (s : SearchState), Simple s → cur ∈ s.enqueued →
      Simple (credits.foldl (visitCredit db cur) s)
  | [], _, h, _ => h
  | c :: rest, s, h, hcur =>
    creditLoop_simple db rest (visitCredit db cur s c) (visitCredit_simple db c h hcur)
      ((visitCredit_extends db cur s c).enqueued cur hcur)

theorem expand_simple (db : Database) {cur : path} {s : SearchState} (h : Simple s)
    (hcur : cur ∈ s.enqueued) : Simple (expand db cur s) := by
  unfold expand
  have h1 : Simple { s with creditsCalls := cur.getLastPlayer :: s.creditsCalls } :=
    { h with }
  cases db.getCredits cur.getLastPlayer with
  | none => exact h1
  | some credits => exact creditLoop_simple db credits _ h1 hcur

theorem bfsLoop_simple (db : Database) (endPlayer : string) :
    ∀ (fuel : Nat) (s : SearchState) (r : path × SearchState), Simple s →
      bfsLoop db endPlayer fuel s = some r →
      Simple r.2 ∧ (r.1 = path.new [] ∨ r.1 ∈ r.2.enqueued)
  | 0, s, r, h, hr => by
    cases hq : s.queue with
    | nil =>
      simp only [bfsLoop, hq, Option.some.injEq] at hr
      subst hr
      exact ⟨h, Or.inl rfl⟩
    | cons cur rest => simp [bfsLoop, hq] at hr
  | fuel + 1, s, r, h, hr => by
    cases hq : s.queue with
    | nil =>
      simp only [bfsLoop, hq, Option.some.injEq] at hr
      subst hr
      exact ⟨h, Or.inl rfl⟩
    | cons cur rest =>
      have hcur : cur ∈ s.enqueued := h.queue_enqueued cur (by rw [hq]; exact List.mem_cons_self _ _)
      have h1 : Simple { s with queue := rest, iterations := s.iterations + 1 } :=
        { h with
          queue_enqueued := fun p hp =>
            h.queue_enqueued p (by rw [hq]; exact List.mem_cons_of_mem _ hp) }
      by_cases he : cur.getLastPlayer = endPlayer
      · simp only [bfsLoop, hq, he, if_true, Option.some.injEq] at hr
        subst hr
        exact ⟨h1, Or.inr hcur⟩
      · simp only [bfsLoop, hq, he, if_false] at hr
        exact bfsLoop_simple db endPlayer fuel _ r (expand_simple db h1 hcur) hr

/-! ## Unknown actors and unreadable films -/

/-- C14. When `start` differs from `endPlayer` and `getCredits` returns `false`
for `start`, `findShortestPath` returns `path("")` after exactly one iteration
of its loop, having called `getCredits` once, on `start`, and `getCast` not at
all. -/
theorem findShortestPath_unknown_start (db : Database) (start endPlayer : string) (fuel : Nat)
    (hne : start ≠ endPlayer) (habs : db.getCredits start = none) :
    findShortestPath (fuel + 1) start endPlayer db = some (path.new []) ∧
    ∃ s, findShortestPathRun (fuel + 1) start endPlayer db = some (path.new [], s) ∧
      s.iterations = 1 ∧ s.castCalls = [] ∧ s.creditsCalls = [start] := by
  have e : findShortestPathRun (fuel + 1) start endPlayer db =
      some (path.new [],
        { queue := [], seenPlayers := [start], seenFilms := [], iterations := 1,
          creditsCalls := [start], castCalls := [], enqueued := [path.new start] }) := by
    simp only [findShortestPathRun, bfsLoop, initialState, getLastPlayer_new, hne, if_false,
      expand, habs, setInsert, List.not_mem_nil]
    cases fuel <;> simp [bfsLoop]
  exact ⟨by simp [findShortestPath, e], _, e, rfl, rfl, rfl⟩

/-- Witness of C14: the small database does not know `actorE`. -/
theorem findShortestPath_unknown_start_witness :
    demoDb.getCredits actorE = none ∧
    findShortestPath (0 + 1) actorE actorA demoDb = some (path.new []) ∧
    ∃ s, findShortestPathRun (0 + 1) actorE actorA demoDb = some (path.new [], s) ∧
      s.iterations = 1 ∧ s.castCalls = [] ∧ s.creditsCalls = [actorE] :=
  ⟨by decide, findShortestPath_unknown_start demoDb actorE actorA 0 (by decide) (by decide)⟩

theorem visitCredit_skips {db db' : Database} (h : SkipsUnreadable db db') (cur : path) :
    visitCredit db' cur = visitCredit db cur := by
  funext s credit
  unfold visitCredit
  rcases h.cast credit with e | ⟨e1, e2⟩
  · rw [e]
  · rw [e1, e2]; rfl

theorem expand_skips {db db' : Database} (h : SkipsUnreadable db db') (cur : path)
    (s : SearchState) : expand db' cur s = expand db cur s := by
  unfold expand
  rw [visitCredit_skips h]
  rcases h.credits cur.getLastPlayer with e | ⟨e1, e2⟩
  · rw [e]
  · rw [e1, e2]; rfl

theorem bfsLoop_skips {db db' : Database} (h : SkipsUnreadable db db') (endPlayer : string) :
    ∀ (fuel : Nat) (s : SearchState), bfsLoop db' endPlayer fuel s = bfsLoop db endPlayer fuel s
  | 0, s => by simp [bfsLoop]
  | fuel + 1, s => by
    simp only [bfsLoop, expand_skips h, bfsLoop_skips h endPlayer fuel]

/-- C18. Skip and continue.  When `getCast` returns `false` for a film, or
`getCredits` for an actor, the search goes on as if the film had an empty cast
and the actor no films: on a database that differs from `db` only in answering
`true` with an empty list where `db` answers `false`, `findShortestPath` gives
the same result for every bound on the iterations, and the whole run is the
same. -/
theorem findShortestPath_skips (db db' : Database) (h : SkipsUnreadable db db')
    (fuel : Nat) (start endPlayer : string) :
    findShortestPath fuel start endPlayer db = findShortestPath fuel start endPlayer db' ∧
    findShortestPathRun fuel start endPlayer db = findShortestPathRun fuel start endPlayer db' := by
  simp [findShortestPath, findShortestPathRun, bfsLoop_skips h]

theorem brokenDb_skips : SkipsUnreadable brokenDb mendedDb where
  credits := by
    intro a
    simp only [brokenDb, mendedDb]
    split_ifs <;> simp
  cast := by
    intro f
    simp only [brokenDb, mendedDb]
    split_ifs <;> simp

/-- Witness of C18: `film3`, the first credit of `actorA`, is unreadable in
`brokenDb` and has an empty cast in `mendedDb`. -/
theorem findShortestPath_skips_witness :
    brokenDb.getCast film3 = none ∧ mendedDb.getCast film3 = some [] ∧
    findShortestPath 3 actorA actorB brokenDb = some ⟨actorA, [(film1, actorB)]⟩ ∧
    findShortestPath 3 actorA actorB brokenDb = findShortestPath 3 actorA actorB mendedDb ∧
    findShortestPathRun 3 actorA actorB brokenDb = findShortestPathRun 3 actorA actorB mendedDb :=
  ⟨by decide, by decide, by decide,
    findShortestPath_skips brokenDb mendedDb brokenDb_skips 3 actorA actorB⟩

theorem getCredits_output (db : imdb) (player : string) (films : List film) (flag : Bool)
    (out : List film) (h : getCredits db player films = some (flag, out)) :
    (flag = false → out = films ∧ ∀ films', getCredits db player films' = some (false, films')) ∧
    (flag = true → ∀ films', getCredits db player films' = some (true, out)) := by
  unfold getCredits at h ⊢
  cases hlb : actorLowerBound db player with
  | none => simp [hlb] at h
  | some r =>
    obtain ⟨numActors, it⟩ := r
    simp only [hlb, Option.some_bind] at h ⊢
    by_cases hit : (it : Int) = numActors
    · simp only [hit, if_true, Option.some.injEq, Prod.mk.injEq] at h ⊢
      obtain ⟨rfl, rfl⟩ := h
      simp
    · simp only [hit, if_false] at h ⊢
      cases ho : readInt db.actorFile (4 + 4 * (it : Int)) with
      | none => simp [ho] at h
      | some offset =>
        simp only [ho, Option.some_bind] at h ⊢
        cases hs : readString db.actorFile offset with
        | none => simp [hs] at h
        | some found =>
          simp only [hs, Option.some_bind] at h ⊢
          by_cases hf : found = player
          · simp only [hf, ne_eq, not_true_eq_false, if_false] at h ⊢
            cases hc : readCredits db offset with
            | none => simp [hc] at h
            | some credits =>
              simp only [hc, Option.map_some', Option.some.injEq, Prod.mk.injEq] at h ⊢
              obtain ⟨rfl, rfl⟩ := h
              simp
          · simp only [ne_eq, hf, not_false_eq_true, if_true, Option.some.injEq,
              Prod.mk.injEq] at h ⊢
            obtain ⟨rfl, rfl⟩ := h
            simp

theorem getCast_output (db : imdb) (movie : film) (players : List string) (flag : Bool)
    (out : List string) (h : getCast db movie players = some (flag, out)) :
    (flag = false → out = players ∧
      ∀ players', getCast db movie players' = some (false, players')) ∧
    (flag = true → ∀ players', getCast db movie players' = some (true, out)) := by
  unfold getCast at h ⊢
  cases hlb : filmLowerBound db movie with
  | none => simp [hlb] at h
  | some r =>
    obtain ⟨numMovies, it⟩ := r
    simp only [hlb, Option.some_bind] at h ⊢
    cases ho : readInt db.movieFile (4 + 4 * (it : Int)) with
    | none => simp [ho] at h
    | some offset =>
      simp only [ho, Option.some_bind] at h ⊢
      cases hb : buildFilm db.movieFile offset with
      | none => simp [hb] at h
      | some foundFilm =>
        simp only [hb, Option.some_bind] at h ⊢
        by_cases hc : ((decide ((it : Int) = numMovies)) || !(foundFilm.eq movie)) = true
        · simp only [hc, if_true, Option.some.injEq, Prod.mk.injEq] at h ⊢
          obtain ⟨rfl, rfl⟩ := h
          simp
        · simp only [hc, if_false] at h ⊢
          cases hr : readCast db offset foundFilm with
          | none => simp [hr] at h
          | some cast =>
            simp only [hr, Option.map_some', Option.some.injEq, Prod.mk.injEq] at h ⊢
            obtain ⟨rfl, rfl⟩ := h
            simp

/-! ## The first hop, films expanded once, simple paths -/

theorem castLoop_seenFilms (cur : path) (credit : film) :
    ∀ (cast : List string) (s : SearchState),
      (cast.foldl (visitCostar cur credit) s).seenFilms = s.seenFilms
  | [], _ => rfl
  | c :: rest, s =>
    (castLoop_seenFilms cur credit rest _).trans (visitCostar_grows cur credit s c).2.1

theorem visitCredit_films (db : Database) (cur : path) (s : SearchState) (credit : film) :
    ∀ g ∈ (visitCredit db cur s credit).seenFilms, g ∈ s.seenFilms ∨ g = credit := by
  unfold visitCredit
  split_ifs with hs
  · exact fun g hg => Or.inl hg
  · intro g hg
    have key : g ∈ setInsert credit s.seenFilms := by
      cases hc : db.getCast credit with
      | none => simpa [hc] using hg
      | some cast =>
        simp only [hc] at hg
        rwa [castLoop_seenFilms] at hg
    simp only [setInsert, hs, if_false, List.mem_cons] at key
    rcases key with h | h
    · exact Or.inr h
    · exact Or.inl h

theorem creditLoop_films (db : Database) (cur : path) :
    ∀ (credits : List film) (s : SearchState),
      ∀ g ∈ (credits.foldl (visitCredit db cur) s).seenFilms, g ∈ s.seenFilms ∨ g ∈ credits
  | [], _, g, hg => Or.inl hg
  | c :: rest, s, g, hg => by
    rcases creditLoop_films db cur rest _ g hg with h | h
    · rcases visitCredit_films db cur s c g h with h | h
      · exact Or.inl h
      · exact Or.inr (h ▸ List.mem_cons_self _ _)
    · exact Or.inr (List.mem_cons_of_mem _ h)

theorem castLoop_enqueues (cur : path) (credit : film) (target : string) :
    ∀ (cast : List string) (s : SearchState), target ∈ cast → target ∉ s.seenPlayers →
      cur.addConnection credit target ∈ (cast.foldl (visitCostar cur credit) s).enqueued
  | [], _, h, _ => absurd h (List.not_mem_nil _)
  | c :: rest, s, h, hs => by
    by_cases hc : c = target
    · subst hc
      apply (castLoop_extends cur credit rest _).enqueued
      rw [visitCostar_unseen hs]
      exact List.mem_cons_self _ _
    · have hrest : target ∈ rest := by
        rcases List.mem_cons.1 h with h | h
        · exact absurd h.symm hc
        · exact h
      refine castLoop_enqueues cur credit target rest _ hrest ?_
      intro hmem
      exact visitCostar_all (fun a => a ≠ target) cur credit s c
        (fun a ha e => hs (e ▸ ha)) hc target hmem rfl

theorem expand_enqueues (db : Database) (cur : path) (s : SearchState) (pre post : List film)
    (f : film) (cast : List string) (target : string)
    (hcredits : db.getCredits cur.getLastPlayer = some (pre ++ f :: post))
    (hpre : ∀ g ∈ pre, ∀ c, db.getCast g = some c → target ∉ c)
    (hcast : db.getCast f = some cast) (htarget : target ∈ cast)
    (hs : target ∉ s.seenPlayers) (hfilms : s.seenFilms = []) :
    cur.addConnection f target ∈ (expand db cur s).enqueued := by
  have hfpre : f ∉ pre := fun hf => hpre f hf cast hcast htarget
  simp only [expand, hcredits, List.foldl_append, List.foldl_cons]
  apply (creditLoop_extends db cur post _).enqueued
  generalize hsa : List.foldl (visitCredit db cur)
    { s with creditsCalls := cur.getLastPlayer :: s.creditsCalls } pre = sa
  have hunseen : target ∉ sa.seenPlayers := by
    intro hmem
    rw [← hsa] at hmem
    exact creditLoop_all (fun a => a ≠ target) cur pre
      { s with creditsCalls := cur.getLastPlayer :: s.creditsCalls }
      (fun a ha e => hs (e ▸ ha))
      (fun g hg c hc x hx e => hpre g hg c hc (e ▸ hx)) target hmem rfl
  have hnew : f ∉ sa.seenFilms := by
    intro hmem
    rw [← hsa] at hmem
    rcases creditLoop_films db cur pre _ f hmem with h | h
    · rw [show ({ s with creditsCalls := cur.getLastPlayer :: s.creditsCalls } :
        SearchState).seenFilms = s.seenFilms from rfl, hfilms] at h
      exact absurd h (List.not_mem_nil _)
    · exact hfpre h
  simp only [visitCredit, hnew, if_false, hcast]
  exact castLoop_enqueues cur f target cast _ htarget hunseen

/-- C13. One-hop search with the first-discovered tie-break.  Let `start` differ
from `endPlayer`, and let `f` be the first film in the list that `getCredits`
gives for `start` on which `getCast` succeeds with a cast that contains
`endPlayer` (no film before `f` in the list has such a cast).  Then
`findShortestPath` returns exactly the path `start, (f, endPlayer)` of one hop,
for every bound on the iterations from the number of chain ends within two hops
onwards. -/
theorem findShortestPath_one_hop (db : Database) (start endPlayer : string)
    (pre post : List film) (f : film) (cast : List string) (hne : start ≠ endPlayer)
    (hcredits : db.getCredits start = some (pre ++ f :: post))
    (hpre : ∀ g ∈ pre, ∀ c, db.getCast g = some c → endPlayer ∉ c)
    (hcast : db.getCast f = some cast) (hend : endPlayer ∈ cast) :
    ∀ fuel, (ball db start 2).length ≤ fuel →
      findShortestPath fuel start endPlayer db = some ⟨start, [(f, endPlayer)]⟩ := by
  have hchain : Chain db start 1 endPlayer :=
    Chain.snoc f Chain.nil ⟨⟨_, hcredits, by simp⟩, cast, hcast, hend⟩
  obtain ⟨r, hrun, pending, hinv, hpost⟩ := run_reaches db start endPlayer 1 hchain
  have hlast : r.1.getLastPlayer = endPlayer ∧ r.1.startPlayer = start := by
    rcases hpost with ⟨_, hp⟩ | ⟨hl, hs, _, _⟩
    · subst hp
      exact absurd hchain (no_chain_of_empty hinv 1)
    · exact ⟨hl, hs⟩
  have hr1 := bfsLoop_mono _ _ r (hrun (ball db start 2).length le_rfl) 1
  have hstep : bfsLoop db endPlayer (ball db start 2).length
      (expand db (path.new start)
        { initialState start with queue := [], iterations := 1 }) = some r := by
    simpa [bfsLoop, initialState, getLastPlayer_new, hne] using hr1
  have hmem1 : (path.new start).addConnection f endPlayer ∈ r.2.enqueued := by
    apply (bfsLoop_extends db endPlayer _ _ r hstep).enqueued
    refine expand_enqueues db (path.new start) _ pre post f cast endPlayer hcredits hpre hcast
      hend ?_ rfl
    simp [initialState, setInsert, Ne.symm hne]
  have hsimple := bfsLoop_simple db endPlayer _ _ r (simple_initial start)
    (show bfsLoop db endPlayer _ (initialState start) = some r from hr1)
  have hmem2 : r.1 ∈ r.2.enqueued := by
    rcases hsimple.2 with h | h
    · exfalso
      have h1 := hlast.1
      have h2 := hlast.2
      rw [h] at h1 h2
      exact hne (h2.symm.trans h1)
    · exact h
  have hnodup : (r.2.enqueued.map path.getLastPlayer).Nodup := by
    rw [hinv.enqueued_last]; exact hinv.seen_nodup
  have heq : r.1 = (path.new start).addConnection f endPlayer :=
    List.inj_on_of_nodup_map hnodup hmem2 hmem1
      (hlast.1.trans (getLastPlayer_addConnection _ _ _).symm)
  intro fuel hf
  have := hrun fuel hf
  simp only [findShortestPath, this, Option.map_some', heq]
  rfl

/-- Witness of C13: the example of the specification. -/
theorem findShortestPath_one_hop_witness :
    findShortestPath 3 kevinBacon tomHanks apolloDb =
      some ⟨kevinBacon, [(apollo13, tomHanks)]⟩ ∧
    ∀ fuel, (ball apolloDb kevinBacon 2).length ≤ fuel →
      findShortestPath fuel kevinBacon tomHanks apolloDb =
        some ⟨kevinBacon, [(apollo13, tomHanks)]⟩ :=
  ⟨by decide,
    findShortestPath_one_hop apolloDb kevinBacon tomHanks [] [] apollo13 [kevinBacon, tomHanks]
      (by decide) (by decide) (by simp) (by decide) (by decide)⟩

/-- C17. In one run of `findShortestPath` every film is expanded at most once:
the films on which `getCast` was called are pairwise distinct, whatever the
credits in which a film occurs and however often.  The seen players and the
seen films only grow: the final state keeps those of the initial state, and
each expansion, each visit of a credit and each visit of a costar keeps those
of the state it starts from. -/
theorem getCast_once (db : Database) (start endPlayer : string) (fuel : Nat) (p : path)
    (s : SearchState) (h : findShortestPathRun fuel start endPlayer db = some (p, s)) :
    s.castCalls.Nodup ∧ Extends (initialState start) s ∧
    (∀ cur s0, Extends s0 (expand db cur s0)) ∧
    (∀ cur s0 credit, Extends s0 (visitCredit db cur s0 credit)) ∧
    (∀ cur credit s0 costar, Extends s0 (visitCostar cur credit s0 costar)) := by
  obtain ⟨pending, hinv, _⟩ := bfsLoop_spec fuel (initialState start) (p, s)
    (inv_initial start endPlayer db) (filmsClosed_initial start db) h
  refine ⟨?_, bfsLoop_extends db endPlayer fuel _ (p, s) h, expand_extends db,
    visitCredit_extends db, visitCostar_extends⟩
  have := hinv.cast_calls
  simp only at this
  rw [this]; exact hinv.films_nodup

/-- Witness of C17: `film1` occurs twice in the credits of `actorA` and once in
those of `actorB`, and `getCast` is called on it once. -/
theorem getCast_once_witness :
    findShortestPathRun 3 actorA actorD repeatDb = some (path.new [], repeatFinal) ∧
    repeatFinal.castCalls = [film2, film1] ∧ repeatFinal.castCalls.Nodup :=
  ⟨by decide, by decide,
    (getCast_once repeatDb actorA actorD 3 (path.new []) repeatFinal (by decide)).1⟩

/-- C20. Every path that `findShortestPath` returns is simple: no actor occurs
twice among its actors and no film occurs twice among its hops.  The same holds
for every path that was pushed on the queue during the run, and no two of these
end in the same actor. -/
theorem findShortestPath_simple (db : Database) (start endPlayer : string) (fuel : Nat)
    (p : path) (s : SearchState)
    (h : findShortestPathRun fuel start endPlayer db = some (p, s)) :
    p.players.Nodup ∧ p.films.Nodup ∧
    (∀ q ∈ s.enqueued, q.players.Nodup ∧ q.films.Nodup) ∧
    (s.enqueued.map path.getLastPlayer).Nodup := by
  obtain ⟨pending, hinv, _⟩ := bfsLoop_spec fuel (initialState start) (p, s)
    (inv_initial start endPlayer db) (filmsClosed_initial start db) h
  obtain ⟨hs, hp⟩ := bfsLoop_simple db endPlayer fuel _ (p, s) (simple_initial start) h
  have hq : ∀ q ∈ s.enqueued, q.players.Nodup ∧ q.films.Nodup :=
    fun q hq => ⟨hs.players_nodup q hq, hs.films_nodup q hq⟩
  have hl : (s.enqueued.map path.getLastPlayer).Nodup := by
    have := hinv.enqueued_last
    simp only at this
    rw [this]; exact hinv.seen_nodup
  rcases hp with hp | hp
  · simp only at hp
    subst hp
    exact ⟨by simp [path.players, path.new], by simp [path.films, path.new], hq, hl⟩
  · exact ⟨(hq p hp).1, (hq p hp).2, hq, hl⟩

/-- Witness of C20: the run from `actorA` to `actorC` in the small database. -/
theorem findShortestPath_simple_witness :
    findShortestPathRun 4 actorA actorC demoDb =
      some (⟨actorA, [(film1, actorB), (film2, actorC)]⟩, demoFinal) ∧
    (path.mk actorA [(film1, actorB), (film2, actorC)]).players.Nodup ∧
    (path.mk actorA [(film1, actorB), (film2, actorC)]).films.Nodup ∧
    (∀ q ∈ demoFinal.enqueued, q.players.Nodup ∧ q.films.Nodup) ∧
    (demoFinal.enqueued.map path.getLastPlayer).Nodup :=
  ⟨by decide,
    findShortestPath_simple demoDb actorA actorC 4 ⟨actorA, [(film1, actorB), (film2, actorC)]⟩
      demoFinal (by decide)⟩

/-! ## The records that `getCredits` and `getCast` decode -/

theorem collectFrom_spec {α : Type} (f : Nat → Option α) :
    ∀ (n i : Nat) (l : List α), collectFrom f i n = some l →
      l.length = n ∧ ∀ j, j < n → l[j]? = f (i + j)
  | 0, i, l, h => by
    simp only [collectFrom, Option.some.injEq] at h
    subst h
    exact ⟨rfl, fun j hj => absurd hj (Nat.not_lt_zero j)⟩
  | n + 1, i, l, h => by
    simp only [collectFrom] at h
    cases hx : f i with
    | none => simp [hx] at h
    | some x =>
      cases hxs : collectFrom f (i + 1) n with
      | none => simp [hx, hxs] at h
      | some xs =>
        simp only [hx, hxs, Option.some_bind, Option.map_some', Option.some.injEq] at h
        subst h
        obtain ⟨hl, hj⟩ := collectFrom_spec f n (i + 1) xs hxs
        refine ⟨by simp [hl], ?_⟩
        intro j hjn
        cases j with
        | zero => simpa using hx.symm
        | succ j =>
          have := hj j (by omega)
          simp only [List.getElem?_cons_succ, this]
          congr 1
          omega

theorem exists_first (P : Nat → Prop) (N : Nat) (h : ∃ i, i < N ∧ P i) :
    ∃ k, k < N ∧ P k ∧ ∀ j, j < k → ¬ P j := by
  classical
  have h' : ∃ i, i < N ∧ P i := h
  refine ⟨Nat.find h', (Nat.find_spec h').1, (Nat.find_spec h').2, ?_⟩
  intro j hj hp
  exact Nat.find_min h' hj ⟨lt_trans hj (Nat.find_spec h').1, hp⟩

theorem actorLowerBound_first {db : imdb} {N : Nat} (h : ActorBuffer db N) (player : string)
    (k : Nat) (hk : k < N) (hname : actorNameAt db k = some player)
    (hfirst : ∀ j, j < k → actorNameAt db j ≠ some player) :
    actorLowerBound db player = some ((N : Int), k) := by
  obtain ⟨k0, hk0, _, hlo, hhi⟩ := actorLowerBound_spec h player
  have h1 : k0 ≤ k := by
    by_contra hlt
    obtain ⟨name, hn, hl⟩ := hlo k (by omega)
    rw [hname] at hn
    cases hn
    rw [strLt_irrefl] at hl
    cases hl
  have h2 : k0 = k := by
    rcases Nat.eq_or_lt_of_le h1 with e | hlt
    · exact e
    · exfalso
      obtain ⟨name, hn, hge⟩ := hhi k0 le_rfl (by omega)
      have hs := h.sorted k0 k name player hlt hk hn hname
      have : name = player := strLt_total name player hge hs
      exact hfirst k0 hlt (this ▸ hn)
  rw [hk0, h2]

theorem getCredits_at {db : imdb} {N : Nat} (h : ActorBuffer db N) (player : string)
    (k : Nat) (offset : Int) (hk : k < N)
    (hoff : readInt db.actorFile (4 + 4 * k) = some offset)
    (hname : readString db.actorFile offset = some player)
    (hfirst : ∀ j, j < k → actorNameAt db j ≠ some player) (films : List film) :
    getCredits db player films = (readCredits db offset).map fun credits => (true, credits) := by
  have hn : actorNameAt db k = some player := by simp [actorNameAt, hoff, hname]
  have hkN : ¬ ((k : Int) = (N : Int)) := by omega
  simp [getCredits, actorLowerBound_first h player k hk hn hfirst, hkN, hoff, hname]

theorem getCredits_miss {db : imdb} {N : Nat} (h : ActorBuffer db N) (player : string)
    (hno : ¬ ∃ i, i < N ∧ actorNameAt db i = some player) (films : List film) :
    getCredits db player films = some (false, films) := by
  obtain ⟨k, hk, hkn, hlo, hhi⟩ := actorLowerBound_spec h player
  rcases Nat.lt_or_ge k N with hlt | hge
  · obtain ⟨offset, name, credits, ho, hn, hc⟩ := h.entry k hlt
    have hname : actorNameAt db k = some name := by simp [actorNameAt, ho, hn]
    have hkN : ¬ ((k : Int) = (N : Int)) := by omega
    have hne : ¬ name = player := fun e => hno ⟨k, hlt, e ▸ hname⟩
    simp [getCredits, hk, hkN, ho, hn, hne]
  · have hkN : (k : Int) = (N : Int) := by omega
    simp [getCredits, hk, hkN]

theorem readCredits_spec {db : imdb} {offset : Int} {name : string} {credits : List film}
    (hname : readString db.actorFile offset = some name)
    (h : readCredits db offset = some credits) :
    ∃ C, readShort db.actorFile (offset + actorCountOffset name.length) = some C ∧
      credits.length = C.toNat ∧
      ∀ j, j < C.toNat → credits[j]? =
        (readInt db.actorFile (offset + listOffset (actorCountOffset name.length) + 4 * j)).bind
          fun movieOffset => buildFilm db.movieFile movieOffset := by
  simp only [readCredits, hname, Option.some_bind] at h
  cases hC : readShort db.actorFile (offset + actorCountOffset name.length) with
  | none => simp [hC] at h
  | some C =>
    simp only [hC, Option.some_bind] at h
    obtain ⟨hl, hj⟩ := collectFrom_spec _ _ _ _ h
    refine ⟨C, rfl, hl, ?_⟩
    intro j hjC
    have := hj j hjC
    simpa using this

theorem readCast_spec {db : imdb} {offset : Int} {f : film} {cast : List string}
    (h : readCast db offset f = some cast) :
    ∃ K, readShort db.movieFile (offset + filmCountOffset f.title.length) = some K ∧
      cast.length = K.toNat ∧
      ∀ t, t < K.toNat → cast[t]? =
        (readInt db.movieFile (offset + listOffset (filmCountOffset f.title.length) + 4 * t)).bind
          fun actorOffset => readString db.actorFile actorOffset := by
  simp only [readCast] at h
  cases hK : readShort db.movieFile (offset + filmCountOffset f.title.length) with
  | none => simp [hK] at h
  | some K =>
    simp only [hK, Option.some_bind] at h
    obtain ⟨hl, hj⟩ := collectFrom_spec _ _ _ _ h
    refine ⟨K, rfl, hl, ?_⟩
    intro t ht
    have := hj t ht
    simpa using this

theorem filmLowerBound_first {db : imdb} {M : Nat} (h : FilmBuffer db M) (movie : film)
    (k : Nat) (hk : k < M) (hfilm : filmAt db k = some movie)
    (hfirst : ∀ j, j < k → filmAt db j ≠ some movie) :
    filmLowerBound db movie = some ((M : Int), k) := by
  obtain ⟨k0, hk0, _, hlo, hhi⟩ := filmLowerBound_spec h movie
  have h1 : k0 ≤ k := by
    by_contra hlt
    obtain ⟨f, hf, hl⟩ := hlo k (by omega)
    rw [hfilm] at hf
    cases hf
    rw [film_lt_irrefl] at hl
    cases hl
  have h2 : k0 = k := by
    rcases Nat.eq_or_lt_of_le h1 with e | hlt
    · exact e
    · exfalso
      obtain ⟨f, hf, hge⟩ := hhi k0 le_rfl (by omega)
      have hs := h.sorted k0 k f movie hlt hk hf hfilm
      have : f = movie := film_lt_total f movie hge hs
      exact hfirst k0 hlt (this ▸ hf)
  rw [hk0, h2]

theorem getCast_at {db : imdb} {M : Nat} (h : FilmBuffer db M) (movie : film)
    (k : Nat) (offset : Int) (hk : k < M)
    (hoff : readInt db.movieFile (4 + 4 * k) = some offset)
    (hfilm : buildFilm db.movieFile offset = some movie)
    (hfirst : ∀ j, j < k → filmAt db j ≠ some movie) (players : List string) :
    getCast db movie players = (readCast db offset movie).map fun cast => (true, cast) := by
  have hf : filmAt db k = some movie := by simp [filmAt, hoff, hfilm]
  have hkM : ¬ ((k : Int) = (M : Int)) := by omega
  have he : movie.eq movie = true := (film_eq_iff movie movie).2 rfl
  simp [getCast, filmLowerBound_first h movie k hk hf hfirst, hkM, hoff, hfilm, he]


/-- C11. `getCredits` tells an unknown actor from an actor without films, and
returns the credits in the order of the record.  On a sorted actor buffer, for
a name that is present, the call returns `true`; with `k` the first entry of
that name, `offset` its record and `C` the count stored there, the list
returned has exactly `C` films when `C` is not negative, it is empty for
`C = 0`, and its `i`-th film is `buildFilm` applied to the `i`-th four-byte
offset of the record (nothing dropped, nothing reordered).  For a name that is
not present the call returns `false`. -/
theorem getCredits_record (db : imdb) (N : Nat) (h : ActorBuffer db N) (player : string)
    (films : List film) :
    ((∃ i, i < N ∧ actorNameAt db i = some player) →
      ∃ (k : Nat) (offset C : Int) (credits : List film),
        k < N ∧ (∀ j, j < k → actorNameAt db j ≠ some player) ∧
        readInt db.actorFile (4 + 4 * k) = some offset ∧
        readString db.actorFile offset = some player ∧
        readShort db.actorFile (offset + actorCountOffset player.length) = some C ∧
        getCredits db player films = some (true, credits) ∧
        (0 ≤ C → (credits.length : Int) = C) ∧
        (C = 0 → credits = []) ∧
        ∀ i, i < credits.length → credits[i]? =
          (readInt db.actorFile
            (offset + listOffset (actorCountOffset player.length) + 4 * i)).bind
            fun movieOffset => buildFilm db.movieFile movieOffset) ∧
    ((¬ ∃ i, i < N ∧ actorNameAt db i = some player) →
      getCredits db player films = some (false, films)) := by
  refine ⟨?_, fun hno => getCredits_miss h player hno films⟩
  intro hp
  obtain ⟨k, hk, hname, hfirst⟩ := exists_first (fun i => actorNameAt db i = some player) N hp
  obtain ⟨offset, name, credits, ho, hn, hc⟩ := h.entry k hk
  have e : name = player := by
    have : actorNameAt db k = some name := by simp [actorNameAt, ho, hn]
    rw [hname] at this
    exact (Option.some.inj this).symm
  subst e
  obtain ⟨C, hC, hl, hj⟩ := readCredits_spec hn hc
  refine ⟨k, offset, C, credits, hk, hfirst, ho, hn, hC, ?_, ?_, ?_, ?_⟩
  · rw [getCredits_at h name k offset hk ho hn hfirst films, hc]; rfl
  · intro h0
    rw [hl]; exact Int.toNat_of_nonneg h0
  · intro h0
    subst h0
    exact List.length_eq_zero.1 hl
  · intro i hi
    exact hj i (hl ▸ hi)

/-- Witness of C11: the actor `A` of the small actor file. -/
theorem getCredits_record_witness :
    ((∃ i, i < 2 ∧ actorNameAt demoImdb i = some [65]) →
      ∃ (k : Nat) (offset C : Int) (credits : List film),
        k < 2 ∧ (∀ j, j < k → actorNameAt demoImdb j ≠ some [65]) ∧
        readInt demoImdb.actorFile (4 + 4 * k) = some offset ∧
        readString demoImdb.actorFile offset = some [65] ∧
        readShort demoImdb.actorFile (offset + actorCountOffset ([65] : string).length) = some C ∧
        getCredits demoImdb [65] [] = some (true, credits) ∧
        (0 ≤ C → (credits.length : Int) = C) ∧
        (C = 0 → credits = []) ∧
        ∀ i, i < credits.length → credits[i]? =
          (readInt demoImdb.actorFile
            (offset + listOffset (actorCountOffset ([65] : string).length) + 4 * i)).bind
            fun movieOffset => buildFilm demoImdb.movieFile movieOffset) ∧
    ((¬ ∃ i, i < 2 ∧ actorNameAt demoImdb i = some [65]) →
      getCredits demoImdb [65] [] = some (false, [])) :=
  getCredits_record demoImdb 2 demo_actorBuffer [65] []

/-- C12. Round trip of the cross-reference.  Let the two tables be sorted, the
keys of the film table be unique, and every film offset of an actor record be
an entry of the film table whose record lists the offset of that actor record
in its cast.  Then for every actor `a` of the actor table `getCredits` returns
`true`, and on every film of the list it gives `getCast` returns `true` with a
cast that contains `a`. -/
theorem credits_cast_round_trip (db : imdb) (N M : Nat) (h : ActorBuffer db N)
    (hf : FilmBuffer db M)
    (huniq : ∀ i j, i < M → j < M → filmAt db i = filmAt db j → i = j)
    (hx : CrossReferenced db N M) (a : string)
    (ha : ∃ i, i < N ∧ actorNameAt db i = some a) (films : List film)
    (players : List string) :
    ∃ credits, getCredits db a films = some (true, credits) ∧
      ∀ f ∈ credits, ∃ cast, getCast db f players = some (true, cast) ∧ a ∈ cast := by
  obtain ⟨k, hk, hname, hfirst⟩ := exists_first (fun i => actorNameAt db i = some a) N ha
  obtain ⟨offset, name, credits, ho, hn, hc⟩ := h.entry k hk
  have e : name = a := by
    have : actorNameAt db k = some name := by simp [actorNameAt, ho, hn]
    rw [hname] at this
    exact (Option.some.inj this).symm
  subst e
  obtain ⟨C, hC, hl, hj⟩ := readCredits_spec hn hc
  refine ⟨credits, by rw [getCredits_at h name k offset hk ho hn hfirst films, hc]; rfl, ?_⟩
  intro f hfm
  obtain ⟨j, hjl, hjf⟩ := List.getElem_of_mem hfm
  have hjC : j < C.toNat := hl ▸ hjl
  obtain ⟨movieOffset, m, f', K, t, hmo, hm, hmt, hb, hK, ht, hback⟩ :=
    hx.back k offset name C j hk ho hn hC hjC
  have hff : f' = f := by
    have h1 := hj j hjC
    rw [hmo, Option.some_bind, hb, List.getElem?_eq_getElem hjl, hjf] at h1
    exact (Option.some.inj h1).symm
  subst hff
  have hfilm : filmAt db m = some f' := by simp [filmAt, hmt, hb]
  obtain ⟨k', hk', hfk', hfirst'⟩ :=
    exists_first (fun i => filmAt db i = some f') M ⟨m, hm, hfilm⟩
  have hkm : k' = m := huniq k' m hk' hm (hfk'.trans hfilm.symm)
  subst hkm
  obtain ⟨offset', g, cast, ho', hg, hcast⟩ := hf.entry k' hk'
  have eo : offset' = movieOffset := by
    rw [ho'] at hmt
    exact Option.some.inj hmt
  subst eo
  have eg : g = f' := by
    rw [hg] at hb
    exact Option.some.inj hb
  subst eg
  refine ⟨cast, by rw [getCast_at hf g k' offset' hk' ho' hg hfirst' players, hcast]; rfl, ?_⟩
  obtain ⟨K', hK', hcl, hct⟩ := readCast_spec hcast
  have eK : K' = K := by
    rw [hK'] at hK
    exact Option.some.inj hK
  subst eK
  have h2 := hct t ht
  rw [hback, Option.some_bind, hn] at h2
  exact List.getElem?_mem h2

theorem demo_crossReferenced : CrossReferenced demoImdb 2 1 where
  back := by
    intro i offset name C j hi ho hn hC hj
    match i, hi with
    | 0, _ =>
      have e : readInt demoImdb.actorFile (4 + 4 * ((0 : Nat) : Int)) = some 12 := by decide
      rw [e] at ho
      cases ho
      have e2 : readString demoImdb.actorFile 12 = some [65] := by decide
      rw [e2] at hn
      cases hn
      have e3 : readShort demoImdb.actorFile (12 + (actorCountOffset ([65] : string).length : Nat))
          = some 1 := by decide
      rw [e3] at hC
      cases hC
      have hj0 : j = 0 := by
        have : (1 : Int).toNat = 1 := rfl
        omega
      subst hj0
      exact ⟨8, 0, ⟨[49], 1990⟩, 1, 0, by decide, by decide, by decide, by decide, by decide,
        by decide, by decide⟩
    | 1, _ =>
      have e : readInt demoImdb.actorFile (4 + 4 * ((1 : Nat) : Int)) = some 20 := by decide
      rw [e] at ho
      cases ho
      have e2 : readString demoImdb.actorFile 20 = some [67] := by decide
      rw [e2] at hn
      cases hn
      have e3 : readShort demoImdb.actorFile (20 + (actorCountOffset ([67] : string).length : Nat))
          = some 0 := by decide
      rw [e3] at hC
      cases hC
      exact absurd hj (Nat.not_lt_zero j)

/-- Witness of C12: the two small files. -/
theorem credits_cast_round_trip_witness :
    getCredits demoImdb [65] [] = some (true, [⟨[49], 1990⟩]) ∧
    getCast demoImdb ⟨[49], 1990⟩ [] = some (true, [[65]]) ∧
    ∃ credits, getCredits demoImdb [65] [] = some (true, credits) ∧
      ∀ f ∈ credits, ∃ cast, getCast demoImdb f [] = some (true, cast) ∧ [65] ∈ cast :=
  ⟨by decide, by decide,
    credits_cast_round_trip demoImdb 2 1 demo_actorBuffer demo_filmBuffer
      (by intro i j hi hj _; omega) demo_crossReferenced [65] ⟨0, by decide, by decide⟩ [] []⟩

/-- C19. The output parameter.  When `getCredits` returns `false`, the vector is
as it was passed in, and the call returns `false` for every other content of
the vector as well; when it returns `true`, it returns `true` with the same
list whatever the vector held before the call.  The same holds for `getCast`. -/
theorem output_parameter (db : imdb) :
    (∀ (player : string) (films : List film) (flag : Bool) (out : List film),
      getCredits db player films = some (flag, out) →
      (flag = false →
        out = films ∧ ∀ films', getCredits db player films' = some (false, films')) ∧
      (flag = true → ∀ films', getCredits db player films' = some (true, out))) ∧
    (∀ (movie : film) (players : List string) (flag : Bool) (out : List string),
      getCast db movie players = some (flag, out) →
      (flag = false →
        out = players ∧ ∀ players', getCast db movie players' = some (false, players')) ∧
      (flag = true → ∀ players', getCast db movie players' = some (true, out))) :=
  ⟨getCredits_output db, getCast_output db⟩

/-- Witness of C19: a hit of `getCredits` and a miss of `getCast` on the two
small files, each with a vector that is not empty. -/
theorem output_parameter_witness :
    getCredits demoImdb [65] [film2] = some (true, [⟨[49], 1990⟩]) ∧
    (∀ films', getCredits demoImdb [65] films' = some (true, [⟨[49], 1990⟩])) ∧
    getCast demoImdb ⟨[49], 1989⟩ [actorB] = some (false, [actorB]) ∧
    (∀ players', getCast demoImdb ⟨[49], 1989⟩ players' = some (false, players')) :=
  ⟨by decide,
    ((output_parameter demoImdb).1 [65] [film2] true [⟨[49], 1990⟩] (by decide)).2 rfl,
    by decide,
    (((output_parameter demoImdb).2 ⟨[49], 1989⟩ [actorB] false [actorB] (by decide)).1 rfl).2⟩


/-! ## Negative counts -/

/-- C16, counterexample.  The record of `A` holds the film count -1, and
`getCredits` returns `true` with an empty list; the record of the film `1` of
1990 holds the cast count -1, and `getCast` returns `true` with an empty list. -/
theorem negative_count_counterexample :
    readShort negActorFile 10 = some (-1) ∧
    getCredits negImdb [65] [] = some (true, []) ∧
    readShort negMovieFile 12 = some (-1) ∧
    getCast negImdb ⟨[49], 1990⟩ [] = some (true, []) := by
  decide

/-- C16, as amended.  A negative count is not reported.  On sorted buffers, for
a key that is present, `k` being the first entry of that key: when the count
stored in its record is negative, `getCredits` (for a film record, `getCast`)
returns `true` with an empty list, as it does for a count of zero. -/
theorem negative_count_empty (db : imdb) (N M : Nat) (h : ActorBuffer db N)
    (hf : FilmBuffer db M) :
    (∀ (player : string) (k : Nat) (offset C : Int) (films : List film), k < N →
      readInt db.actorFile (4 + 4 * k) = some offset →
      readString db.actorFile offset = some player →
      (∀ j, j < k → actorNameAt db j ≠ some player) →
      readShort db.actorFile (offset + actorCountOffset player.length) = some C → C < 0 →
      getCredits db player films = some (true, [])) ∧
    (∀ (movie : film) (k : Nat) (offset K : Int) (players : List string), k < M →
      readInt db.movieFile (4 + 4 * k) = some offset →
      buildFilm db.movieFile offset = some movie →
      (∀ j, j < k → filmAt db j ≠ some movie) →
      readShort db.movieFile (offset + filmCountOffset movie.title.length) = some K → K < 0 →
      getCast db movie players = some (true, [])) := by
  constructor
  · intro player k offset C films hk ho hn hfirst hC hneg
    rw [getCredits_at h player k offset hk ho hn hfirst films]
    have hz : C.toNat = 0 := Int.toNat_of_nonpos (le_of_lt hneg)
    simp [readCredits, hn, hC, hz, collectFrom]
  · intro movie k offset K players hk ho hb hfirst hK hneg
    rw [getCast_at hf movie k offset hk ho hb hfirst players]
    have hz : K.toNat = 0 := Int.toNat_of_nonpos (le_of_lt hneg)
    simp [readCast, hK, hz, collectFrom]

theorem neg_actorBuffer : ActorBuffer negImdb 1 where
  count := by decide
  entry := by
    intro i hi
    have hi0 : i = 0 := by omega
    subst hi0
    exact ⟨8, [65], [], by decide, by decide, by decide⟩
  sorted := by
    intro i j _ _ hij hj _ _
    omega

theorem neg_filmBuffer : FilmBuffer negImdb 1 where
  count := by decide
  entry := by
    intro i hi
    have hi0 : i = 0 := by omega
    subst hi0
    exact ⟨8, ⟨[49], 1990⟩, [], by decide, by decide, by decide⟩
  sorted := by
    intro i j _ _ hij hj _ _
    omega

/-- Witness of C16 as amended: the two files with the count -1. -/
theorem negative_count_empty_witness :
    getCredits negImdb [65] [film1] = some (true, []) ∧
    getCast negImdb ⟨[49], 1990⟩ [actorA] = some (true, []) :=
  ⟨(negative_count_empty negImdb 1 1 neg_actorBuffer neg_filmBuffer).1 [65] 0 8 (-1) [film1]
      (by decide) (by decide) (by decide) (fun j hj => absurd hj (Nat.not_lt_zero j))
      (by decide) (by decide),
    (negative_count_empty negImdb 1 1 neg_actorBuffer neg_filmBuffer).2 ⟨[49], 1990⟩ 0 8 (-1)
      [actorA] (by decide) (by decide) (by decide) (fun j hj => absurd hj (Nat.not_lt_zero j))
      (by decide) (by decide)⟩

/-! ## Titles without a terminator -/

theorem scanString_none : ∀ l : List Byte, (∀ j : Nat, l[j]? ≠ some 0) → scanString l = none
  | [], _ => rfl
  | b :: rest, h => by
    have hb : b ≠ 0 := by simpa using h 0
    have ih := scanString_none rest (fun j => by simpa using h (j + 1))
    simp [scanString, hb, ih]

theorem scanReads_mem : ∀ (l : List Byte) (a : Nat), (∀ j : Nat, l[j]? ≠ some 0) →
    ∀ m, a ≤ m → m ≤ a + l.length → m ∈ scanReads l a
  | [], a, _, m, h1, h2 => by
    have : m = a := by simpa using le_antisymm h2 h1
    simp [scanReads, this]
  | b :: rest, a, h, m, h1, h2 => by
    have hb : b ≠ 0 := by simpa using h 0
    simp only [scanReads, hb, if_false, List.mem_cons]
    rcases Nat.eq_or_lt_of_le h1 with e | hlt
    · exact Or.inl e.symm
    · right
      refine scanReads_mem rest (a + 1) (fun j => by simpa using h (j + 1)) m hlt ?_
      simp only [List.length_cons] at h2
      omega

/-- C15, counterexample.  The file of two bytes holds no zero byte, and
`buildFilm` at offset 0 reads the addresses 0, 1 and 2: address 2 is the length
of the file. -/
theorem buildFilm_unterminated_counterexample :
    (∀ j, j < unterminated.length → unterminated[j]? ≠ some 0) ∧
    buildFilmReads unterminated 0 = [0, 1, 2] ∧
    ¬ (∀ a ∈ buildFilmReads unterminated 0, a < unterminated.length) := by
  decide

/-- C15, as amended.  `buildFilm` has no error path.  When no zero byte occurs
from `offset` to the end of the file, the scan of the title reads every byte
from `offset` to the end of the file and then the address after the last byte
(or `offset` itself when that lies further out), outside of the file; the call
has no defined result. -/
theorem buildFilm_unterminated (movieData : List Byte) (offset : Nat)
    (h : ∀ j, offset ≤ j → movieData[j]? ≠ some 0) :
    buildFilm movieData (offset : Int) = none ∧
    max offset movieData.length ∈ buildFilmReads movieData offset ∧
    ∀ j, offset ≤ j → j < movieData.length → j ∈ buildFilmReads movieData offset := by
  have hdrop : ∀ j : Nat, (movieData.drop offset)[j]? ≠ some 0 := by
    intro j
    rw [List.getElem?_drop]
    exact h (offset + j) (Nat.le_add_right _ _)
  have hneg : ¬ ((offset : Int) < 0) := by omega
  have hs : readString movieData (offset : Int) = none := by
    simp only [readString, hneg, if_false, Int.toNat_ofNat]
    exact scanString_none _ hdrop
  have hreads : ∀ m, offset ≤ m → m ≤ max offset movieData.length →
      m ∈ buildFilmReads movieData offset := by
    intro m h1 h2
    simp only [buildFilmReads, hs, List.append_nil, stringReads]
    refine scanReads_mem _ offset hdrop m h1 ?_
    rw [List.length_drop]
    omega
  refine ⟨by simp [buildFilm, hs], hreads _ (le_max_left _ _) le_rfl, ?_⟩
  intro j h1 h2
  exact hreads j h1 (le_trans (le_of_lt h2) (le_max_right _ _))

/-- Witness of C15 as amended: the file of two bytes. -/
theorem buildFilm_unterminated_witness :
    buildFilm unterminated ((0 : Nat) : Int) = none ∧
    max 0 unterminated.length ∈ buildFilmReads unterminated 0 ∧
    ∀ j, 0 ≤ j → j < unterminated.length → j ∈ buildFilmReads unterminated 0 :=
  buildFilm_unterminated unterminated 0 (by
    intro j _
    rcases Nat.lt_or_ge j 2 with hj | hj
    · interval_cases j <;> decide
    · rw [List.getElem?_eq_none (by simpa [unterminated] using hj)]
      exact fun e => by cases e)


theorem scanReads_inbounds : ∀ (l : List Byte) (a : Nat),
    (∀ m ∈ scanReads l a, m < a + l.length) ↔ (scanString l).isSome = true
  | [], a => by simp [scanReads, scanString]
  | b :: rest, a => by
    by_cases hb : b = 0
    · simp [scanReads, scanString, hb]
    · have ih := scanReads_inbounds rest (a + 1)
      simp only [scanReads, hb, if_false, List.mem_cons, forall_eq_or_imp, List.length_cons,
        scanString, Option.isSome_map']
      rw [← ih]
      constructor
      · rintro ⟨_, h⟩ m hm
        have := h m hm
        omega
      · intro h
        exact ⟨by omega, fun m hm => by have := h m hm; omega⟩

/-- The result of `buildFilm` is defined exactly when every read is inside of
the file. -/
theorem buildFilm_defined_iff (movieData : List Byte) (offset : Nat) :
    (∀ a ∈ buildFilmReads movieData offset, a < movieData.length) ↔
      (buildFilm movieData (offset : Int)).isSome = true := by
  have hneg : ¬ ((offset : Int) < 0) := by omega
  have hrs : readString movieData (offset : Int) = scanString (movieData.drop offset) := by
    simp [readString, hneg]
  rcases Nat.lt_or_ge movieData.length offset with hlt | hle
  · have hd : movieData.drop offset = [] := List.drop_eq_nil_of_le (le_of_lt hlt)
    simp only [buildFilmReads, stringReads, hrs, hd, scanReads, scanString, buildFilm,
      Option.none_bind, Option.isSome_none]
    simp only [List.append_nil, List.mem_singleton, forall_eq, Bool.false_eq_true, iff_false]
    omega
  · have hin := scanReads_inbounds (movieData.drop offset) offset
    rw [List.length_drop, Nat.add_sub_cancel' hle] at hin
    cases hs : scanString (movieData.drop offset) with
    | none =>
      rw [hs] at hin
      simp only [buildFilmReads, stringReads, hrs, hs, List.append_nil, buildFilm,
        Option.none_bind]
      exact hin
    | some title =>
      rw [hs] at hin
      have hall := hin.2 rfl
      have hneg2 : ¬ ((offset : Int) + (title.length : Int) + 1 < 0) := by omega
      have hto : ((offset : Int) + (title.length : Int) + 1).toNat = offset + title.length + 1 := by
        omega
      simp only [buildFilmReads, stringReads, hrs, hs, buildFilm, Option.some_bind, readChar,
        readByte, hneg2, if_false, hto, Option.isSome_map', List.mem_append,
        List.mem_singleton]
      constructor
      · intro h
        have := h (offset + title.length + 1) (Or.inr rfl)
        rw [List.getElem?_eq_getElem this]
        rfl
      · intro h a ha
        rcases ha with ha | ha
        · exact hall a ha
        · subst ha
          by_contra hge
          rw [List.getElem?_eq_none (by omega)] at h
          cases h

end Imdb
